import Mathlib

/-!
Verification of the bit-parallel pattern-matching containers of
`include/jaro_winkler/details/common.hpp`:

* `BitvectorHashmap`  — 128-slot open-addressing map from a `uint64_t` key to a
  64-bit mask, with CPython-style perturbation probing;
* `PatternMatchVector` — 256-entry direct table for byte-sized keys plus a
  `BitvectorHashmap` fallback for wider keys;
* `BlockPatternMatchVector` — the blocked variant for patterns longer than 64
  characters.

Machine integers are modelled as `Nat` (for the unsigned 64-bit quantities,
reduced `% 2 ^ 64` where the code converts) and `Int` (for the `int64_t`
quantities `i` and `perturb` inside the probe loop).  The C++ probe loop
`while (true) { i = ((i * 5) + perturb + 1) % 128; ... perturb >>= 5; }` is
embedded with an explicit fuel argument; `none` models a lookup that does not
return normally (either the loop never terminates, or a negative probe index
is used to subscript the 128-element array, which is out-of-bounds).  The
`int64_t` details are kept exactly: the conversion of the unsigned key to a
signed `perturb` wraps, `>>= 5` on a negative value is an arithmetic shift
(floor division), `%` on a negative value is truncating (`Int.tmod`), and a
signed overflow of `i * 5 + perturb + 1` wraps to the int64 range.
-/

set_option maxRecDepth 40000

namespace JaroWinkler

/-- Size of the unsigned 64-bit value range, `2 ^ 64`. -/
def U64 : Nat := 2 ^ 64

/-- Reduce an integer into the value range of `int64_t`, modelling the
two's-complement wrap-around of 64-bit signed arithmetic. -/
def wrap64 (x : Int) : Int := (x + 2 ^ 63) % 2 ^ 64 - 2 ^ 63

/-- The value of `int64_t perturb = key;` for an unsigned 64-bit `key`:
conversion of a `uint64_t` to `int64_t` wraps into the signed range. -/
def toInt64 (n : Nat) : Int := wrap64 (n : Int)

/-- The C++ statement `perturb >>= 5` on an `int64_t`: an arithmetic right
shift by 5, i.e. floor division by 32 (also for negative values). -/
def sar5 (p : Int) : Int := Int.fdiv p 32

/-- The probe-index update `i = ((i * 5) + perturb + 1) % 128` on `int64_t`
values: the sum wraps into the int64 range on overflow, and `%` is the
truncating remainder of C++ (negative for a negative dividend). -/
def probeInt (i p : Int) : Int := (wrap64 (i * 5 + p + 1)).tmod 128

/-- One slot of `BitvectorHashmap::m_map`: `struct MapElem { uint64_t key;
uint64_t value; }`, zero-initialized. -/
structure MapElem where
  key : Nat
  value : Nat
deriving DecidableEq, Repr

/-- The 128-slot array `std::array<MapElem, 128> m_map`. -/
abbrev HMap := Fin 128 → MapElem

/-- The zero-initialized map built by the `BitvectorHashmap` constructor. -/
def emptyH : HMap := fun _ => ⟨0, 0⟩

/-- The acceptance condition of the probe loop:
`!m_map[i].value || m_map[i].key == key`. -/
def slotOk (m : HMap) (key : Nat) (j : Fin 128) : Bool :=
  (m j).value == 0 || (m j).key == key

/-- The slot index denoted by the `int64_t` probe value `probeInt i p`; only
used after checking `0 ≤ probeInt i p < 128`, where the `% 128` is the
identity. -/
def probeIdx (i p : Int) : Fin 128 :=
  ⟨(probeInt i p).toNat % 128, Nat.mod_lt _ (by omega)⟩

/-- The body of `while (true) { ... }` in `BitvectorHashmap::lookup`, with
explicit fuel.  `i` and `p` are the `int64_t` variables `i` and `perturb`.
Returns `none` when the fuel is exhausted (modelling non-termination) or when
the freshly computed probe index is outside `[0, 128)` (modelling the
out-of-bounds array subscript `m_map[i]` with a negative `i`). -/
def lookupAux (m : HMap) (k : Nat) : Nat → Int → Int → Option (Fin 128)
  | 0, _, _ => none
  | fuel + 1, i, p =>
    if 0 ≤ probeInt i p ∧ probeInt i p < 128 then
      if slotOk m k (probeIdx i p) then some (probeIdx i p)
      else lookupAux m k fuel (probeInt i p) (sar5 p)
    else none

/-- The initial probe index `int64_t i = key % 128;` (on the key reduced to
its `uint64_t` value). -/
def startIdx (key : Nat) : Fin 128 := ⟨key % U64 % 128, Nat.mod_lt _ (by omega)⟩

/-- The probe loop `BitvectorHashmap::lookup(uint64_t key)`: start at `key % 128`, accept an
empty or matching slot immediately, otherwise run the perturbation probe loop
with `perturb` initialized to the (signed reinterpretation of the) key. -/
def lookupF (m : HMap) (key : Nat) (fuel : Nat) : Option (Fin 128) :=
  if slotOk m (key % U64) (startIdx key) then some (startIdx key)
  else lookupAux m (key % U64) fuel ((startIdx key).val : Int) (toInt64 (key % U64))

/-- Fuel used by the operations of the structure.  Any successful lookup of a
key below `2 ^ 62` finishes within 142 probes (13 shifts empty the perturb,
then the full-cycle recurrence `i ↦ 5 i + 1 mod 128` reaches every slot in at
most 128 further steps), so 256 is enough for every terminating case proved
in this development. -/
def FUEL : Nat := 256

/-- The function `BitvectorHashmap::insert_mask(key, mask)`:
`int64_t i = lookup(key); m_map[i].key = key; m_map[i].value |= mask;`.
Both stored fields are `uint64_t`, hence the reductions `% U64`. -/
def insertMask (m : HMap) (key mask : Nat) : Option HMap :=
  (lookupF m key FUEL).map fun j =>
    Function.update m j ⟨key % U64, ((m j).value ||| mask) % U64⟩

/-- The function `BitvectorHashmap::insert(key, pos)`: `insert_mask(key, 1ull << pos)`.
The shift is well defined for `pos < 64`, which is the only range exercised. -/
def hmInsert (m : HMap) (key pos : Nat) : Option HMap :=
  insertMask m key (2 ^ pos % U64)

/-- The function `BitvectorHashmap::get(key)`: `return m_map[lookup(key)].value;`. -/
def getH (m : HMap) (key : Nat) : Option Nat :=
  (lookupF m key FUEL).map fun j => (m j).value

/-- Run a sequence of `insert_mask(key, mask)` calls. -/
def hmapInsertList : HMap → List (Nat × Nat) → Option HMap
  | m, [] => some m
  | m, p :: rest =>
    match insertMask m p.1 p.2 with
    | some m2 => hmapInsertList m2 rest
    | none => none

/-- Number of occupied (non-zero-valued) slots of the hashmap. -/
def countNZ (m : HMap) : Nat :=
  (Finset.univ.filter fun j : Fin 128 => (m j).value ≠ 0).card

/-- A `PatternMatchVector`: one `BitvectorHashmap` plus the 256-entry direct
table `std::array<uint64_t, 256> m_extendedAscii`, both zero-initialized. -/
structure PMV where
  map : HMap
  ascii : Fin 256 → Nat

/-- The default-constructed (empty) `PatternMatchVector`. -/
def pmv0 : PMV := ⟨emptyH, fun _ => 0⟩

/-- The shared routing step of both `PatternMatchVector::insert` overloads,
for one key and an already-computed mask: keys in `[0, 255]` are OR'd into
the direct table, all other keys go through `m_map.insert_mask`.  Keys are
unsigned character codes, so the `key >= 0` half of the C++ test is always
true here. -/
def pmvInsertMask (v : PMV) (key mask : Nat) : Option PMV :=
  if h : key ≤ 255 then
    some { v with
      ascii := Function.update v.ascii ⟨key, by omega⟩
        ((v.ascii ⟨key, by omega⟩ ||| mask) % U64) }
  else
    (insertMask v.map key mask).map fun m2 => { v with map := m2 }

/-- The result of the direct-table branch of the routing step, as a named
function (the table cell `key` is OR'd with the mask). -/
def pmvAsciiUpd (v : PMV) (key mask : Nat) (h : key < 256) : PMV :=
  { v with ascii := Function.update v.ascii ⟨key, h⟩ ((v.ascii ⟨key, h⟩ ||| mask) % U64) }

/-- The single-position `PatternMatchVector::insert(key, pos)`: mask `1ull << pos` (well defined
for `pos < 64`), then the routing step. -/
def pmvInsertOne (v : PMV) (key pos : Nat) : Option PMV :=
  pmvInsertMask v key (2 ^ pos % U64)

/-- The loop of the bulk `PatternMatchVector::insert(first, last)`: the
running `uint64_t mask` starts at 1 and is shifted left once per element
(`mask <<= 1`), so it is zero from the 65th element on. -/
def pmvInsertSeqAux : PMV → Nat → List Nat → Option PMV
  | v, _, [] => some v
  | v, mask, k :: rest =>
    match pmvInsertMask v k mask with
    | some v2 => pmvInsertSeqAux v2 ((mask * 2) % U64) rest
    | none => none

/-- The bulk `PatternMatchVector::insert(first, last)` on a fresh running mask of 1. -/
def pmvInsertSeq (v : PMV) (s : List Nat) : Option PMV := pmvInsertSeqAux v 1 s

/-- Run a sequence of single `(key, mask)` routing steps. -/
def pmvInsertList : PMV → List (Nat × Nat) → Option PMV
  | v, [] => some v
  | v, p :: rest =>
    match pmvInsertMask v p.1 p.2 with
    | some v2 => pmvInsertList v2 rest
    | none => none

/-- The function `PatternMatchVector::get(key)`: direct table for keys in `[0, 255]`,
hashmap otherwise. -/
def pmvGet (v : PMV) (key : Nat) : Option Nat :=
  if h : key ≤ 255 then some (v.ascii ⟨key, by omega⟩) else getH v.map key

/-- Result of a `BlockPatternMatchVector` operation.  `assertViolation` is the
fail-fast outcome of the `assert(block < m_block_count)` contract check;
`oob` is an out-of-bounds vector subscript (undefined behaviour, not caught
by the assert) or a hashmap probe that does not return. -/
inductive BRes (α : Type) where
  | ok : α → BRes α
  | assertViolation : BRes α
  | oob : BRes α
deriving DecidableEq

/-- A `BlockPatternMatchVector`: `m_block_count`, the per-block hashmaps
`std::vector<BitvectorHashmap> m_map` and the shared direct table
`std::vector<uint64_t> m_extendedAscii` of size `256 * m_block_count`
(indexed column-major as `key * m_block_count + block`).  The two vectors are
modelled as total functions; all in-bounds cells are reached through indices
below `m_block_count` resp. `256 * m_block_count`, and out-of-bounds
subscripts are flagged as `BRes.oob` by the operations before any access. -/
structure BPMV where
  blockCount : Nat
  maps : Nat → HMap
  ascii : Nat → Nat

/-- The state right after the two `resize` calls of the bulk insert when
starting from a default-constructed vector: `c` blocks, all hashmaps and all
direct-table cells zero-initialized. -/
def blockFresh (c : Nat) : BPMV := ⟨c, fun _ => emptyH, fun _ => 0⟩

/-- The helper `ceildiv(a, divisor)` from `common.hpp` for the nonnegative `int64_t`
values it is used with: `a / divisor + (a % divisor != 0)`. -/
def ceildivN (a b : Nat) : Nat := a / b + if a % b ≠ 0 then 1 else 0

/-- The function `BlockPatternMatchVector::insert(block, key, pos)`.  `block` is the
`int64_t` argument: the assert checks only `block < m_block_count`, so a
negative block is *not* caught and flows into the vector subscripts. -/
def blockInsertOne (v : BPMV) (block : Int) (key : Nat) (pos : Nat) : BRes BPMV :=
  let mask := 2 ^ pos % U64
  if block < (v.blockCount : Int) then
    if key ≤ 255 then
      let idx : Int := (key : Int) * v.blockCount + block
      if 0 ≤ idx ∧ idx < 256 * (v.blockCount : Int) then
        .ok { v with
          ascii := Function.update v.ascii idx.toNat
            ((v.ascii idx.toNat ||| mask) % U64) }
      else .oob
    else
      if 0 ≤ block then
        match insertMask (v.maps block.toNat) key mask with
        | some m2 => .ok { v with maps := Function.update v.maps block.toNat m2 }
        | none => .oob
      else .oob
  else .assertViolation

/-- The function `BlockPatternMatchVector::get(block, key)`, with the same assert and the
same routing as the insert. -/
def blockGet (v : BPMV) (block : Int) (key : Nat) : BRes Nat :=
  if block < (v.blockCount : Int) then
    if key ≤ 255 then
      let idx : Int := (key : Int) * v.blockCount + block
      if 0 ≤ idx ∧ idx < 256 * (v.blockCount : Int) then .ok (v.ascii idx.toNat)
      else .oob
    else
      if 0 ≤ block then
        match getH (v.maps block.toNat) key with
        | some w => .ok w
        | none => .oob
      else .oob
  else .assertViolation

/-- The loop of the bulk `BlockPatternMatchVector::insert(first, last)`:
position `i` is routed to block `i / 64`, bit `i % 64`. -/
def blockLoop : BPMV → List Nat → Nat → BRes BPMV
  | v, [], _ => .ok v
  | v, k :: rest, i =>
    match blockInsertOne v ((i / 64 : Nat) : Int) k (i % 64) with
    | .ok v2 => blockLoop v2 rest (i + 1)
    | .assertViolation => .assertViolation
    | .oob => .oob

/-- The bulk `BlockPatternMatchVector::insert(first, last)` starting from a
default-constructed vector (the constructor path): set
`m_block_count = ceildiv(len, 64)`, resize both vectors, then insert every
position. -/
def blockBuild (s : List Nat) : BRes BPMV :=
  blockLoop (blockFresh (ceildivN s.length 64)) s 0

/-! ### Arithmetic bridge lemmas

For keys below `2 ^ 62` (which covers every character code of the supported
`uint8_t` / `uint16_t` / `uint32_t` string types and all Unicode code points)
the signed `int64_t` probe arithmetic never wraps and never goes negative, so
it collapses to plain `Nat` arithmetic. -/

theorem lt_U64_of_lt62 {k : Nat} (h : k < 2 ^ 62) : k < U64 :=
  lt_trans h (by norm_num [U64])

theorem mod_U64_small {k : Nat} (h : k < 2 ^ 62) : k % U64 = k :=
  Nat.mod_eq_of_lt (lt_U64_of_lt62 h)

theorem wrap64_id (x : Int) (h1 : -(2 ^ 63) ≤ x) (h2 : x < 2 ^ 63) : wrap64 x = x := by
  have h3 : (x + 2 ^ 63) % 2 ^ 64 = x + 2 ^ 63 := Int.emod_eq_of_lt (by omega) (by omega)
  simp only [wrap64, h3]; omega

theorem toInt64_small (n : Nat) (h : n < 2 ^ 63) : toInt64 n = (n : Int) := by
  have h2 : (n : Int) < 2 ^ 63 := by exact_mod_cast h
  exact wrap64_id _ (le_trans (by norm_num) (Int.natCast_nonneg n)) h2

theorem tmod_ofNat (m n : Nat) : (↑m : Int).tmod ↑n = ↑(m % n) := rfl

theorem fdiv_ofNat (m n : Nat) : (↑m : Int).fdiv ↑n = ↑(m / n) :=
  (Int.ofNat_fdiv m n).symm

theorem sar5_ofNat (b : Nat) : sar5 ↑b = ↑(b / 32) := fdiv_ofNat b 32

theorem probeInt_ofNat (a b : Nat) (ha : a < 128) (hb : b < 2 ^ 62) :
    probeInt ↑a ↑b = ↑((a * 5 + b + 1) % 128) := by
  have h1 : (↑a * 5 + ↑b + 1 : Int) = ↑(a * 5 + b + 1) := by push_cast; ring
  have h2 : ((a * 5 + b + 1 : Nat) : Int) < 2 ^ 63 := by
    have : a * 5 + b + 1 < 2 ^ 63 := by
      have : (2:Nat) ^ 62 + 640 < 2 ^ 63 := by norm_num
      omega
    exact_mod_cast this
  rw [probeInt, h1, wrap64_id _ (le_trans (by norm_num) (Int.natCast_nonneg _)) h2]
  exact tmod_ofNat _ 128

/-! ### The pure probe sequence

For a key below `2 ^ 62` the sequence of probe indices visited by `lookup` is
a pure function of the key: `probe k 0 = k % 128` and
`probe k (t+1) = (probe k t * 5 + (k >> 5 t) + 1) % 128`.  After 13 steps the
perturb is zero and the recurrence becomes the full-cycle linear congruential
map `i ↦ 5 i + 1 mod 128`, so the sequence visits every slot of the table
within probe numbers `13 .. 141`. -/

/-- The value of `perturb` used when computing probe number `t + 1`:
the key shifted right by `5 t` bits. -/
def pert (k t : Nat) : Nat := k >>> (5 * t)

/-- The probe-index sequence of `lookup` for a small key. -/
def probe (k : Nat) : Nat → Nat
  | 0 => k % 128
  | t + 1 => (probe k t * 5 + pert k t + 1) % 128

theorem probe_lt (k t : Nat) : probe k t < 128 := by
  cases t with
  | zero => exact Nat.mod_lt _ (by omega)
  | succ t => exact Nat.mod_lt _ (by omega)

/-- The probe sequence as elements of `Fin 128`. -/
def probeF (k t : Nat) : Fin 128 := ⟨probe k t, probe_lt k t⟩

theorem pert_zero (k : Nat) : pert k 0 = k := by simp [pert]

theorem pert_le (k t : Nat) : pert k t ≤ k := by
  rw [pert, Nat.shiftRight_eq_div_pow]; exact Nat.div_le_self _ _

theorem pert_succ (k t : Nat) : pert k (t + 1) = pert k t / 32 := by
  have h : 5 * (t + 1) = 5 * t + 5 := by ring
  rw [pert, h, Nat.shiftRight_add, pert, Nat.shiftRight_eq_div_pow _ 5]

theorem pert_big_zero (k t : Nat) (hk : k < 2 ^ 62) (ht : 13 ≤ t) : pert k t = 0 := by
  rw [pert, Nat.shiftRight_eq_div_pow]
  refine Nat.div_eq_of_lt (lt_of_lt_of_le hk ?_)
  calc (2:Nat) ^ 62 ≤ 2 ^ 65 := by norm_num
    _ ≤ 2 ^ (5 * t) := Nat.pow_le_pow_right (by omega) (by omega)

/-- The zero-perturb probe recurrence `i ↦ (5 i + 1) mod 128`, an LCG with
full period 128. -/
def lcg (i : Nat) : Nat := (i * 5 + 1) % 128

theorem lcg_orbit0 : ∀ t : Fin 128, ∃ n : Fin 128, lcg^[n.val] 0 = t.val := by decide

theorem lcg_iter128 : lcg^[128] 0 = 0 := by decide

theorem lcg_reach (s t : Nat) (hs : s < 128) (ht : t < 128) :
    ∃ n, 1 ≤ n ∧ n ≤ 128 ∧ lcg^[n] s = t := by
  obtain ⟨a, ha0⟩ := lcg_orbit0 ⟨s, hs⟩
  obtain ⟨b, hb0⟩ := lcg_orbit0 ⟨t, ht⟩
  have ha : lcg^[a.val] 0 = s := by simpa using ha0
  have hb : lcg^[b.val] 0 = t := by simpa using hb0
  rcases Nat.lt_trichotomy a.val b.val with hab | hab | hab
  · refine ⟨b.val - a.val, by omega, by omega, ?_⟩
    conv_lhs => rw [← ha]
    rw [← Function.iterate_add_apply]
    have h : b.val - a.val + a.val = b.val := by omega
    rw [h, hb]
  · have hst : s = t := by rw [← ha, ← hb, hab]
    refine ⟨128, by omega, le_refl _, ?_⟩
    have hcalc : lcg^[128] s = s := by
      conv_lhs => rw [← ha]
      rw [← Function.iterate_add_apply, Nat.add_comm,
        Function.iterate_add_apply, lcg_iter128, ha]
    rw [hcalc]; exact hst
  · refine ⟨128 + b.val - a.val, by omega, by omega, ?_⟩
    conv_lhs => rw [← ha]
    rw [← Function.iterate_add_apply]
    have h : 128 + b.val - a.val + a.val = b.val + 128 := by omega
    rw [h, Function.iterate_add_apply, lcg_iter128, hb]

theorem probe_lcg (k : Nat) (hk : k < 2 ^ 62) (n : Nat) :
    probe k (13 + n) = lcg^[n] (probe k 13) := by
  induction n with
  | zero => simp
  | succ n ih =>
    have h : 13 + (n + 1) = (13 + n) + 1 := by omega
    rw [h, probe, pert_big_zero k (13 + n) hk (by omega), Function.iterate_succ_apply',
      ← ih, lcg, Nat.add_zero]

/-- Every slot of the table appears in the probe sequence of every small key,
at a probe number of at most 141. -/
theorem probe_window (k : Nat) (hk : k < 2 ^ 62) (j : Fin 128) :
    ∃ u, u ≤ 141 ∧ probe k u = j.val := by
  obtain ⟨n, h1, h2, h3⟩ := lcg_reach (probe k 13) j.val (probe_lt k 13) j.isLt
  exact ⟨13 + n, by omega, by rw [probe_lcg k hk n, h3]⟩

/-! ### Basic lemmas about the probe loop -/

theorem lookupAux_zero (m : HMap) (k : Nat) (i p : Int) :
    lookupAux m k 0 i p = none := rfl

theorem lookupAux_succ (m : HMap) (k : Nat) (fuel : Nat) (i p : Int) :
    lookupAux m k (fuel + 1) i p =
      if 0 ≤ probeInt i p ∧ probeInt i p < 128 then
        if slotOk m k (probeIdx i p) then some (probeIdx i p)
        else lookupAux m k fuel (probeInt i p) (sar5 p)
      else none := rfl

theorem probeIdx_eq (i p : Int) (a : Nat) (ha : a < 128) (hp2 : probeInt i p = ↑a) :
    probeIdx i p = ⟨a, ha⟩ := by
  apply Fin.ext
  simp [probeIdx, hp2, Nat.mod_eq_of_lt ha]

theorem lookupAux_succ_nat (m : HMap) (k : Nat) (fuel : Nat) (i p : Int) (a : Nat)
    (ha : a < 128) (hp2 : probeInt i p = ↑a) :
    lookupAux m k (fuel + 1) i p =
      if slotOk m k ⟨a, ha⟩ then some ⟨a, ha⟩
      else lookupAux m k fuel ↑a (sar5 p) := by
  rw [lookupAux_succ, probeIdx_eq i p a ha hp2, hp2,
    if_pos ⟨Int.natCast_nonneg a, by exact_mod_cast ha⟩]

theorem lookupAux_some_ok (m : HMap) (k : Nat) :
    ∀ fuel (i p : Int) (h : Fin 128),
      lookupAux m k fuel i p = some h → slotOk m k h = true := by
  intro fuel
  induction fuel with
  | zero => intro i p h hsome; rw [lookupAux_zero] at hsome; cases hsome
  | succ fuel ih =>
    intro i p h hsome
    rw [lookupAux_succ] at hsome
    split at hsome
    case isTrue hb =>
      split at hsome
      case isTrue hok => injection hsome with hh; rw [← hh]; exact hok
      case isFalse hok => exact ih _ _ _ hsome
    case isFalse hb => cases hsome

theorem lookupF_some_ok (m : HMap) (key fuel : Nat) (h : Fin 128)
    (hs : lookupF m key fuel = some h) : slotOk m (key % U64) h = true := by
  rw [lookupF] at hs
  split at hs
  case isTrue hok => injection hs with hh; rw [← hh]; exact hok
  case isFalse hok => exact lookupAux_some_ok m _ fuel _ _ h hs

theorem lookupAux_congr (m1 m2 : HMap) (k : Nat)
    (hok : ∀ j, slotOk m1 k j = slotOk m2 k j) :
    ∀ fuel (i p : Int), lookupAux m1 k fuel i p = lookupAux m2 k fuel i p := by
  intro fuel
  induction fuel with
  | zero => intro i p; rfl
  | succ fuel ih =>
    intro i p
    rw [lookupAux_succ, lookupAux_succ]
    split
    case isTrue hb =>
      rw [hok (probeIdx i p)]
      split
      · rfl
      · exact ih _ _
    case isFalse hb => rfl

theorem lookupF_congr (m1 m2 : HMap) (key : Nat)
    (hok : ∀ j, slotOk m1 (key % U64) j = slotOk m2 (key % U64) j) (fuel : Nat) :
    lookupF m1 key fuel = lookupF m2 key fuel := by
  rw [lookupF, lookupF, hok]
  split
  · rfl
  · exact lookupAux_congr m1 m2 _ hok fuel _ _

theorem lookupAux_stable (m m2 : HMap) (k : Nat) (h : Fin 128)
    (hmono : ∀ j, slotOk m k j = false → slotOk m2 k j = false)
    (hok2 : slotOk m2 k h = true) :
    ∀ fuel (i p : Int),
      lookupAux m k fuel i p = some h → lookupAux m2 k fuel i p = some h := by
  intro fuel
  induction fuel with
  | zero => intro i p hs; rw [lookupAux_zero] at hs; cases hs
  | succ fuel ih =>
    intro i p hs
    rw [lookupAux_succ] at hs ⊢
    split at hs
    case isTrue hb =>
      split at hs
      case isTrue hok1 =>
        injection hs with hh
        rw [if_pos hb, hh, if_pos hok2]
      case isFalse hok1 =>
        simp only [Bool.not_eq_true] at hok1
        have h2 := hmono _ hok1
        rw [if_pos hb, if_neg (by simp [h2])]
        exact ih _ _ hs
    case isFalse hb => cases hs

theorem lookupF_stable (m m2 : HMap) (key : Nat) (h : Fin 128)
    (hmono : ∀ j, slotOk m (key % U64) j = false → slotOk m2 (key % U64) j = false)
    (hok2 : slotOk m2 (key % U64) h = true) (fuel : Nat)
    (hs : lookupF m key fuel = some h) : lookupF m2 key fuel = some h := by
  rw [lookupF] at hs ⊢
  split at hs
  case isTrue hok1 =>
    injection hs with hh
    rw [hh] at hok1
    rw [hh, if_pos hok2]
  case isFalse hok1 =>
    simp only [Bool.not_eq_true] at hok1
    have hf2 := hmono _ hok1
    rw [if_neg (by simp [hf2])]
    exact lookupAux_stable m m2 _ h hmono hok2 fuel _ _ hs

/-! ### Termination of the probe loop for small keys -/

theorem lookupAux_probe (m : HMap) (k : Nat) (hk : k < 2 ^ 62) (N : Nat)
    (hokN : slotOk m k (probeF k N) = true)
    (hmin : ∀ u, u < N → slotOk m k (probeF k u) = false) :
    ∀ fuel t, t < N → N ≤ t + fuel →
      lookupAux m k fuel ↑(probe k t) ↑(pert k t) = some (probeF k N) := by
  intro fuel
  induction fuel with
  | zero => intro t h1 h2; omega
  | succ fuel ih =>
    intro t h1 h2
    have hp : probeInt ↑(probe k t) ↑(pert k t) = ↑(probe k (t + 1)) := by
      rw [probeInt_ofNat _ _ (probe_lt k t) (lt_of_le_of_lt (pert_le k t) hk)]
      rfl
    rw [lookupAux_succ_nat m k fuel _ _ (probe k (t + 1)) (probe_lt k (t + 1)) hp]
    rcases Nat.eq_or_lt_of_le (Nat.succ_le_of_lt h1) with hN | hN
    · rw [show (⟨probe k (t + 1), probe_lt k (t + 1)⟩ : Fin 128) = probeF k N by
        rw [← hN]; rfl]
      rw [if_pos hokN]
    · have hno := hmin (t + 1) hN
      rw [if_neg (by simp [show slotOk m k ⟨probe k (t + 1), probe_lt k (t + 1)⟩ = false
        from hno])]
      have hsar : sar5 ↑(pert k t) = (↑(pert k (t + 1)) : Int) := by
        rw [sar5_ofNat, pert_succ]
      rw [hsar]
      exact ih (t + 1) hN (by omega)

/-- Whenever some slot would accept the key (in particular whenever the table
has an empty slot), `lookup` of a key below `2 ^ 62` terminates within the
fixed fuel and returns an accepting slot. -/
theorem lookup_terminates (m : HMap) (key : Nat) (hk : key < 2 ^ 62)
    (hsome : ∃ j : Fin 128, slotOk m key j = true) :
    ∃ h, lookupF m key FUEL = some h ∧ slotOk m key h = true := by
  have hmod : key % U64 = key := mod_U64_small hk
  obtain ⟨j0, hj0⟩ := hsome
  obtain ⟨u, hu, hpu⟩ := probe_window key hk j0
  have hexu : slotOk m key (probeF key u) = true := by
    have : probeF key u = j0 := Fin.ext hpu
    rw [this]; exact hj0
  have hex : ∃ n, slotOk m key (probeF key n) = true := ⟨u, hexu⟩
  have hokN : slotOk m key (probeF key (Nat.find hex)) = true := Nat.find_spec hex
  have hmin : ∀ v, v < Nat.find hex → slotOk m key (probeF key v) = false := by
    intro v hv
    have hnot := Nat.find_min hex hv
    simpa using hnot
  have hNle : Nat.find hex ≤ u := Nat.find_min' hex hexu
  have hstart : startIdx key = probeF key 0 := by
    apply Fin.ext
    simp [startIdx, probeF, probe, hmod]
  rw [lookupF, hmod]
  by_cases h0 : slotOk m key (startIdx key) = true
  · exact ⟨startIdx key, by rw [if_pos h0], h0⟩
  · rcases Nat.eq_zero_or_pos (Nat.find hex) with h0N | hpos
    · rw [hstart] at h0
      rw [h0N] at hokN
      exact absurd hokN h0
    · refine ⟨probeF key (Nat.find hex), ?_, hokN⟩
      rw [if_neg h0]
      have harg1 : (((startIdx key).val : Nat) : Int) = ↑(probe key 0) := by
        rw [hstart]; rfl
      have harg2 : toInt64 key = (↑(pert key 0) : Int) := by
        rw [toInt64_small key (lt_trans hk (by norm_num)), pert_zero]
      rw [harg1, harg2]
      exact lookupAux_probe m key hk (Nat.find hex) hokN hmin FUEL 0 hpos
        (by simp only [FUEL]; omega)

/-! ### Occupied-slot counting -/

theorem exists_empty_slot (m : HMap) (h : countNZ m < 128) :
    ∃ j, (m j).value = 0 := by
  by_contra hall
  push_neg at hall
  have hfull : (Finset.univ.filter fun j : Fin 128 => (m j).value ≠ 0) =
      Finset.univ := Finset.filter_true_of_mem fun j _ => hall j
  rw [countNZ, hfull, Finset.card_univ] at h
  simp at h

theorem slotOk_of_empty (m : HMap) (key : Nat) (j : Fin 128)
    (h : (m j).value = 0) : slotOk m key j = true := by
  simp [slotOk, h]

/-! ### The abstract view: accumulated masks per key

A run of `insert_mask` calls is abstracted as a list of `(key, mask)` pairs;
`orMasks ps k` is the OR of all masks inserted for key `k` (reduced `% U64`
exactly as the stored `uint64_t` value is). -/

/-- Keys of a pair list. -/
def keysOf (ps : List (Nat × Nat)) : List Nat := ps.map Prod.fst

/-- The pairs with a non-zero mask — the only ones that can occupy a slot. -/
def nzOf (ps : List (Nat × Nat)) : List (Nat × Nat) := ps.filter fun p => p.2 ≠ 0

/-- One step of mask accumulation for a fixed key. -/
def orStep (q : Nat) (acc : Nat) (p : Nat × Nat) : Nat :=
  if p.1 = q then (acc ||| p.2) % U64 else acc

/-- The accumulated mask of key `q` over an insert list. -/
def orMasks (ps : List (Nat × Nat)) (q : Nat) : Nat := ps.foldl (orStep q) 0

theorem keysOf_append (ps qs : List (Nat × Nat)) :
    keysOf (ps ++ qs) = keysOf ps ++ keysOf qs := List.map_append _ _ _

theorem nzOf_append (ps qs : List (Nat × Nat)) :
    nzOf (ps ++ qs) = nzOf ps ++ nzOf qs := List.filter_append _ _

theorem keysOf_nzOf_subset (ps : List (Nat × Nat)) :
    ∀ x ∈ keysOf (nzOf ps), x ∈ keysOf ps := by
  intro x hx
  exact (List.Sublist.map Prod.fst (List.filter_sublist ps)).subset hx

theorem orMasks_append_one (ps : List (Nat × Nat)) (k2 mk q : Nat) :
    orMasks (ps ++ [(k2, mk)]) q =
      if k2 = q then (orMasks ps q ||| mk) % U64 else orMasks ps q := by
  rw [orMasks, List.foldl_append]
  rfl

theorem orFold_not_mem (q : Nat) :
    ∀ (ps : List (Nat × Nat)) (acc : Nat), q ∉ keysOf ps →
      ps.foldl (orStep q) acc = acc := by
  intro ps
  induction ps with
  | nil => intro acc _; rfl
  | cons p rest ih =>
    intro acc hq
    have hne : p.1 ≠ q := by
      intro hc; exact hq (by simp [keysOf, hc])
    have hrest : q ∉ keysOf rest := by
      intro hc; exact hq (by simp [keysOf] at hc ⊢; exact Or.inr hc)
    rw [List.foldl_cons, orStep, if_neg hne]
    exact ih acc hrest

theorem orMasks_not_mem (ps : List (Nat × Nat)) (q : Nat) (h : q ∉ keysOf ps) :
    orMasks ps q = 0 := orFold_not_mem q ps 0 h

theorem orFold_lt (q : Nat) :
    ∀ (ps : List (Nat × Nat)) (acc : Nat), acc < U64 →
      ps.foldl (orStep q) acc < U64 := by
  intro ps
  induction ps with
  | nil => intro acc h; exact h
  | cons p rest ih =>
    intro acc h
    rw [List.foldl_cons, orStep]
    split
    · exact ih _ (Nat.mod_lt _ (by norm_num [U64]))
    · exact ih _ h

theorem orMasks_lt (ps : List (Nat × Nat)) (q : Nat) : orMasks ps q < U64 :=
  orFold_lt q ps 0 (by norm_num [U64])

theorem orFold_testBit (q i : Nat) (hi : i < 64) :
    ∀ (ps : List (Nat × Nat)) (acc : Nat), acc.testBit i = true →
      (ps.foldl (orStep q) acc).testBit i = true := by
  intro ps
  induction ps with
  | nil => intro acc h; exact h
  | cons p rest ih =>
    intro acc h
    rw [List.foldl_cons, orStep]
    split
    · refine ih _ ?_
      have : (acc ||| p.2) % U64 = (acc ||| p.2) % 2 ^ 64 := rfl
      rw [this, Nat.testBit_mod_two_pow, Nat.testBit_or, h]
      simp [hi]
    · exact ih _ h

theorem orFold_testBit_mem (k mk i : Nat) (hi : i < 64) (hbit : mk.testBit i = true) :
    ∀ (ps : List (Nat × Nat)) (acc : Nat), (k, mk) ∈ ps →
      (ps.foldl (orStep k) acc).testBit i = true := by
  intro ps
  induction ps with
  | nil => intro acc h; cases h
  | cons p rest ih =>
    intro acc hmem
    rw [List.foldl_cons]
    rcases List.mem_cons.mp hmem with hp | hp
    · rw [← hp]
      have hstep : orStep k acc (k, mk) = (acc ||| mk) % U64 := by
        rw [orStep]; simp
      rw [hstep]
      apply orFold_testBit k i hi
      have hU : (acc ||| mk) % U64 = (acc ||| mk) % 2 ^ 64 := rfl
      rw [hU, Nat.testBit_mod_two_pow, Nat.testBit_or, hbit]
      simp [hi]
    · exact ih _ hp

theorem orMasks_testBit (ps : List (Nat × Nat)) (k mk i : Nat) (hi : i < 64)
    (hmem : (k, mk) ∈ ps) (hbit : mk.testBit i = true) :
    (orMasks ps k).testBit i = true :=
  orFold_testBit_mem k mk i hi hbit ps 0 hmem

theorem or_eq_zero_parts {x y : Nat} (h : x ||| y = 0) : x = 0 ∧ y = 0 := by
  constructor
  · refine Nat.eq_of_testBit_eq fun i => ?_
    have h2 := Nat.testBit_or x y i
    rw [h, Nat.zero_testBit] at h2
    rcases Bool.or_eq_false_iff.mp h2.symm with ⟨hx, _⟩
    simp [hx]
  · refine Nat.eq_of_testBit_eq fun i => ?_
    have h2 := Nat.testBit_or x y i
    rw [h, Nat.zero_testBit] at h2
    rcases Bool.or_eq_false_iff.mp h2.symm with ⟨_, hy⟩
    simp [hy]

/-! ### The reachable-state invariant of `BitvectorHashmap`

`HInv m ps` relates the concrete table `m` to the abstract insert history
`ps`: every occupied slot belongs to an inserted (non-zero-mask) key, every
occupied slot is the slot its own key's lookup returns, and `get` of every
inserted key returns exactly the accumulated mask. -/

structure HInv (m : HMap) (ps : List (Nat × Nat)) : Prop where
  mem : ∀ j, (m j).value ≠ 0 → (m j).key ∈ keysOf (nzOf ps)
  self : ∀ j, (m j).value ≠ 0 → lookupF m ((m j).key) FUEL = some j
  getsome : ∀ k, k ∈ keysOf ps → getH m k = some (orMasks ps k)
  vlt : ∀ j, (m j).value < U64
  klt : ∀ j, (m j).value ≠ 0 → (m j).key < 2 ^ 62

theorem hinv_empty : HInv emptyH [] := by
  refine ⟨?_, ?_, ?_, ?_, ?_⟩
  · intro j hj; exact absurd rfl hj
  · intro j hj; exact absurd rfl hj
  · intro k hk; cases hk
  · intro j; norm_num [emptyH, U64]
  · intro j hj; exact absurd rfl hj

theorem countNZ_le_distinct (m : HMap) (ps : List (Nat × Nat))
    (h1 : ∀ j, (m j).value ≠ 0 → (m j).key ∈ keysOf (nzOf ps))
    (h2 : ∀ j, (m j).value ≠ 0 → lookupF m ((m j).key) FUEL = some j) :
    countNZ m ≤ (keysOf (nzOf ps)).toFinset.card := by
  rw [countNZ]
  apply Finset.card_le_card_of_injOn (fun j => (m j).key)
  · intro j hj
    rw [Finset.mem_filter] at hj
    rw [List.mem_toFinset]
    exact h1 j hj.2
  · intro a ha b hb hab
    simp only [Finset.coe_filter, Set.mem_setOf_eq, Finset.mem_univ, true_and] at ha hb
    have hla := h2 a ha
    have hlb := h2 b hb
    have hab' : (m a).key = (m b).key := hab
    rw [hab'] at hla
    rw [hla] at hlb
    injection hlb

theorem HInv.countNZ_le {m : HMap} {ps : List (Nat × Nat)} (hinv : HInv m ps) :
    countNZ m ≤ (keysOf (nzOf ps)).toFinset.card :=
  countNZ_le_distinct m ps hinv.mem hinv.self

/-- Zero-default at the map level: in an invariant-satisfying table that is
not full, `get` of any small key that was never inserted returns `some 0`. -/
theorem HInv.get_absent {m : HMap} {ps : List (Nat × Nat)} (hinv : HInv m ps)
    (hcnt : countNZ m < 128) (q : Nat) (hq : q < 2 ^ 62)
    (hmemq : q ∉ keysOf ps) : getH m q = some 0 := by
  obtain ⟨j0, hj0⟩ := exists_empty_slot m hcnt
  obtain ⟨h, hl, hok⟩ :=
    lookup_terminates m q hq ⟨j0, slotOk_of_empty m q j0 hj0⟩
  rw [getH, hl, Option.map_some']
  simp only [slotOk, Bool.or_eq_true, beq_iff_eq] at hok
  rcases hok with hv | hk
  · rw [hv]
  · by_cases hv : (m h).value = 0
    · rw [hv]
    · exact absurd (keysOf_nzOf_subset ps _ (hk ▸ hinv.mem h hv)) hmemq

theorem slotOk_congr_elem {m m2 : HMap} (q : Nat) (j : Fin 128)
    (h : m2 j = m j) : slotOk m2 q j = slotOk m q j := by
  rw [slotOk, slotOk, h]

theorem slotOk_false_of (m : HMap) (q : Nat) (j : Fin 128)
    (hv : (m j).value ≠ 0) (hk : (m j).key ≠ q) : slotOk m q j = false := by
  have b1 : ((m j).value == 0) = false := by simp [hv]
  have b2 : ((m j).key == q) = false := by simp [hk]
  rw [slotOk, b1, b2]
  rfl

/-- Preservation of the invariant by one `insert_mask` call: under the key
bound, the mask range, a not-yet-full table and the (127-distinct-key)
capacity margin, the insert succeeds and the invariant carries over to the
extended history. -/
theorem hinv_insert (m : HMap) (ps : List (Nat × Nat)) (key mask : Nat)
    (hinv : HInv m ps)
    (hpk : ∀ p ∈ ps, p.1 < 2 ^ 62)
    (hkey : key < 2 ^ 62) (hmask : mask < U64)
    (hcntA : countNZ m < 128)
    (hcapB : (keysOf (nzOf (ps ++ [(key, mask)]))).toFinset.card ≤ 127) :
    ∃ m2, insertMask m key mask = some m2 ∧ HInv m2 (ps ++ [(key, mask)]) := by
  have hmod : key % U64 = key := mod_U64_small hkey
  obtain ⟨j0, hj0⟩ := exists_empty_slot m hcntA
  obtain ⟨s, hls, hoks⟩ :=
    lookup_terminates m key hkey ⟨j0, slotOk_of_empty m key j0 hj0⟩
  have hdi : (m s).value = 0 ∨ (m s).key = key := by
    simpa [slotOk, Bool.or_eq_true, beq_iff_eq] using hoks
  set e2 : MapElem := ⟨key, ((m s).value ||| mask) % U64⟩ with he2
  set m2 : HMap := Function.update m s e2 with hm2def
  have hins : insertMask m key mask = some m2 := by
    rw [insertMask, hls, Option.map_some', hmod, hm2def, he2]
  have hm2s : m2 s = e2 := by
    rw [hm2def]; exact Function.update_same s e2 m
  have hm2o : ∀ j, j ≠ s → m2 j = m j := by
    intro j hj
    rw [hm2def]; exact Function.update_noteq hj e2 m
  have hk2 : (m2 s).key = key := by rw [hm2s]
  have hv2 : (m2 s).value = ((m s).value ||| mask) % U64 := by rw [hm2s]
  have hvU : (m s).value < 2 ^ 64 := by
    have := hinv.vlt s
    simpa [U64] using this
  have hmU : mask < 2 ^ 64 := by simpa [U64] using hmask
  have horlt : (m s).value ||| mask < 2 ^ 64 := Nat.or_lt_two_pow hvU hmU
  have hv2' : (m2 s).value = (m s).value ||| mask := by
    rw [hv2, Nat.mod_eq_of_lt (by simpa [U64] using horlt)]
  have hor_ne : (m s).value ≠ 0 → (m2 s).value ≠ 0 := by
    intro h0 hc
    rw [hv2'] at hc
    exact h0 (or_eq_zero_parts hc).1
  have hok2s : slotOk m2 key s = true := by simp [slotOk, hk2]
  have hl2 : lookupF m2 key FUEL = some s := by
    apply lookupF_stable m m2 key s ?_ ?_ FUEL hls
    · intro j hj
      rw [hmod] at hj ⊢
      by_cases hjs : j = s
      · rw [hjs, hoks] at hj; cases hj
      · rw [slotOk_congr_elem key j (hm2o j hjs)]; exact hj
    · rw [hmod]; exact hok2s
  have hstab_occ : ∀ j, j ≠ s → (m j).value ≠ 0 →
      lookupF m2 ((m j).key) FUEL = some j := by
    intro j hjs hjv
    have hkj := hinv.self j hjv
    have hkjlt := hinv.klt j hjv
    have hkjmod : (m j).key % U64 = (m j).key := mod_U64_small hkjlt
    have hkjne : (m j).key ≠ key := by
      intro hc
      rw [hc, hls] at hkj
      injection hkj with hh
      exact hjs hh.symm
    apply lookupF_stable m m2 _ j ?_ ?_ FUEL hkj
    · intro j' hj'
      rw [hkjmod] at hj' ⊢
      by_cases hj's : j' = s
      · rw [hj's] at hj' ⊢
        by_cases hvs0 : (m s).value = 0
        · rw [slotOk_of_empty m _ s hvs0] at hj'; cases hj'
        · exact slotOk_false_of m2 _ s (hor_ne hvs0)
            (by rw [hk2]; exact fun hc => hkjne hc.symm)
      · rw [slotOk_congr_elem _ j' (hm2o j' hj's)]; exact hj'
    · rw [hkjmod]
      have hokold := lookupF_some_ok m _ FUEL j hkj
      rw [hkjmod] at hokold
      rw [slotOk_congr_elem _ j (hm2o j hjs)]
      exact hokold
  have hmem2 : ∀ j, (m2 j).value ≠ 0 →
      (m2 j).key ∈ keysOf (nzOf (ps ++ [(key, mask)])) := by
    intro j hj
    by_cases hjs : j = s
    · rw [hjs] at hj ⊢
      rw [hk2]
      rw [hv2'] at hj
      by_cases hm0 : mask = 0
      · rw [hm0, Nat.or_zero] at hj
        have hks : (m s).key = key := by
          rcases hdi with h | h
          · exact absurd h hj
          · exact h
        have hmm := hinv.mem s hj
        rw [hks] at hmm
        rw [nzOf_append, keysOf_append]
        exact List.mem_append_left _ hmm
      · rw [nzOf_append, keysOf_append]
        refine List.mem_append_right _ ?_
        simp [nzOf, keysOf, hm0]
    · rw [hm2o j hjs] at hj ⊢
      have hmm := hinv.mem j hj
      rw [nzOf_append, keysOf_append]
      exact List.mem_append_left _ hmm
  have hself2 : ∀ j, (m2 j).value ≠ 0 → lookupF m2 ((m2 j).key) FUEL = some j := by
    intro j hj
    by_cases hjs : j = s
    · rw [hjs] at hj ⊢
      rw [hk2]; exact hl2
    · rw [hm2o j hjs] at hj ⊢
      exact hstab_occ j hjs hj
  have hvlt2 : ∀ j, (m2 j).value < U64 := by
    intro j
    by_cases hjs : j = s
    · rw [hjs, hv2]
      exact Nat.mod_lt _ (by norm_num [U64])
    · rw [hm2o j hjs]; exact hinv.vlt j
  have hklt2 : ∀ j, (m2 j).value ≠ 0 → (m2 j).key < 2 ^ 62 := by
    intro j hj
    by_cases hjs : j = s
    · rw [hjs, hk2]; exact hkey
    · rw [hm2o j hjs] at hj ⊢
      exact hinv.klt j hj
  have hcnt2 : countNZ m2 < 128 := by
    have hle := countNZ_le_distinct m2 (ps ++ [(key, mask)]) hmem2 hself2
    omega
  have hget_key : getH m2 key = some (orMasks (ps ++ [(key, mask)]) key) := by
    rw [getH, hl2, Option.map_some', orMasks_append_one, if_pos rfl]
    congr 1
    rw [hv2]
    congr 1
    by_cases hmem : key ∈ keysOf ps
    · have hgs := hinv.getsome key hmem
      rw [getH, hls, Option.map_some'] at hgs
      injection hgs with hh
      rw [hh]
    · have hv0 : (m s).value = 0 := by
        rcases hdi with h | h
        · exact h
        · by_contra hne
          exact hmem (keysOf_nzOf_subset ps _ (h ▸ hinv.mem s hne))
      rw [hv0, orMasks_not_mem ps key hmem]
  have hget_other : ∀ k', k' ∈ keysOf ps → k' ≠ key → getH m2 k' = getH m k' := by
    intro k' hk'ps hqk
    have hk'lt : k' < 2 ^ 62 := by
      obtain ⟨p, hp, hpe⟩ := List.mem_map.mp hk'ps
      rw [← hpe]; exact hpk p hp
    have hk'mod : k' % U64 = k' := mod_U64_small hk'lt
    obtain ⟨h, hlh⟩ : ∃ h, lookupF m k' FUEL = some h := by
      have hgs := hinv.getsome k' hk'ps
      rw [getH] at hgs
      cases hlk : lookupF m k' FUEL with
      | none => rw [hlk] at hgs; simp at hgs
      | some x => exact ⟨x, rfl⟩
    by_cases hvs : (m s).value = 0
    · by_cases hm0 : mask = 0
      · have hz : (m2 s).value = 0 := by rw [hv2', hm0, Nat.or_zero, hvs]
        have hpw : ∀ j, slotOk m2 (k' % U64) j = slotOk m (k' % U64) j := by
          intro j
          rw [hk'mod]
          by_cases hjs : j = s
          · rw [hjs, slotOk_of_empty m2 k' s hz, slotOk_of_empty m k' s hvs]
          · exact slotOk_congr_elem _ j (hm2o j hjs)
        rw [getH, getH, lookupF_congr m2 m k' hpw FUEL, hlh, Option.map_some',
          Option.map_some']
        congr 1
        by_cases hhs : h = s
        · rw [hhs, hv2', hm0, Nat.or_zero]
        · rw [hm2o h hhs]
      · by_cases hhs : h = s
        · rw [hhs] at hlh
          have hnok' : ∀ j, (m2 j).value ≠ 0 → (m2 j).key ≠ k' := by
            intro j hj2 hc
            by_cases hjs : j = s
            · rw [hjs, hk2] at hc
              exact hqk hc.symm
            · rw [hm2o j hjs] at hj2 hc
              have hsl := hinv.self j hj2
              rw [hc, hlh] at hsl
              injection hsl with hh
              exact hjs hh.symm
          obtain ⟨j1, hj1⟩ := exists_empty_slot m2 hcnt2
          obtain ⟨h2, hlh2, hok2⟩ :=
            lookup_terminates m2 k' hk'lt ⟨j1, slotOk_of_empty m2 k' j1 hj1⟩
          rw [getH, getH, hlh2, hlh, Option.map_some', Option.map_some']
          congr 1
          simp only [slotOk, Bool.or_eq_true, beq_iff_eq] at hok2
          rcases hok2 with hz | hkk
          · rw [hz, hvs]
          · by_cases hz2 : (m2 h2).value = 0
            · rw [hz2, hvs]
            · exact absurd hkk (hnok' h2 hz2)
        · have hmono2 : ∀ j, slotOk m (k' % U64) j = false →
              slotOk m2 (k' % U64) j = false := by
            intro j hjf
            rw [hk'mod] at hjf ⊢
            by_cases hjs : j = s
            · rw [hjs] at hjf
              rw [slotOk_of_empty m k' s hvs] at hjf
              cases hjf
            · rw [slotOk_congr_elem _ j (hm2o j hjs)]
              exact hjf
          have hok2' : slotOk m2 (k' % U64) h = true := by
            rw [hk'mod]
            have hokold := lookupF_some_ok m k' FUEL h hlh
            rw [hk'mod] at hokold
            rw [slotOk_congr_elem _ h (hm2o h hhs)]
            exact hokold
          have hlh2 := lookupF_stable m m2 k' h hmono2 hok2' FUEL hlh
          rw [getH, getH, hlh, hlh2, Option.map_some', Option.map_some']
          congr 1
          rw [hm2o h hhs]
    · have hksold : (m s).key = key := by
        rcases hdi with h | h
        · exact absurd h hvs
        · exact h
      have hfs : slotOk m k' s = false :=
        slotOk_false_of m k' s hvs (by rw [hksold]; exact fun hc => hqk hc.symm)
      have hfs2 : slotOk m2 k' s = false :=
        slotOk_false_of m2 k' s (hor_ne hvs) (by rw [hk2]; exact fun hc => hqk hc.symm)
      have hpw : ∀ j, slotOk m2 (k' % U64) j = slotOk m (k' % U64) j := by
        intro j
        rw [hk'mod]
        by_cases hjs : j = s
        · rw [hjs, hfs, hfs2]
        · exact slotOk_congr_elem _ j (hm2o j hjs)
      have hhs : h ≠ s := by
        intro hc
        have hokh := lookupF_some_ok m k' FUEL h hlh
        rw [hk'mod, hc, hfs] at hokh
        cases hokh
      rw [getH, getH, lookupF_congr m2 m k' hpw FUEL, hlh, Option.map_some',
        Option.map_some']
      congr 1
      rw [hm2o h hhs]
  have hgetsome2 : ∀ k', k' ∈ keysOf (ps ++ [(key, mask)]) →
      getH m2 k' = some (orMasks (ps ++ [(key, mask)]) k') := by
    intro k' hk'
    by_cases hqk : k' = key
    · subst hqk; exact hget_key
    · have hk'ps : k' ∈ keysOf ps := by
        rw [keysOf_append] at hk'
        rcases List.mem_append.mp hk' with h | h
        · exact h
        · exfalso
          apply hqk
          simpa [keysOf] using h
      rw [hget_other k' hk'ps hqk, orMasks_append_one,
        if_neg (fun hc => hqk hc.symm), hinv.getsome k' hk'ps]
  exact ⟨m2, hins, ⟨hmem2, hself2, hgetsome2, hvlt2, hklt2⟩⟩

theorem distinct_keys_mono (xs ys : List (Nat × Nat)) :
    (keysOf (nzOf xs)).toFinset.card ≤ (keysOf (nzOf (xs ++ ys))).toFinset.card := by
  apply Finset.card_le_card
  intro a ha
  rw [List.mem_toFinset] at ha ⊢
  rw [nzOf_append, keysOf_append]
  exact List.mem_append_left _ ha

/-- Running a whole insert history from an invariant-satisfying state
succeeds and preserves the invariant, provided all keys are small, all masks
are in range and the whole history touches at most 127 distinct
non-zero-mask keys. -/
theorem hinv_list_go : ∀ (rest done : List (Nat × Nat)) (m : HMap),
    HInv m done →
    (∀ p ∈ done ++ rest, p.1 < 2 ^ 62 ∧ p.2 < U64) →
    (keysOf (nzOf (done ++ rest))).toFinset.card ≤ 127 →
    ∃ m2, hmapInsertList m rest = some m2 ∧ HInv m2 (done ++ rest) := by
  intro rest
  induction rest with
  | nil =>
    intro done m hinv hpk hcap
    exact ⟨m, rfl, by simpa using hinv⟩
  | cons p rest ih =>
    intro done m hinv hpk hcap
    have hpk1 : p.1 < 2 ^ 62 := (hpk p (by simp)).1
    have hpm : p.2 < U64 := (hpk p (by simp)).2
    have heq : done ++ [p] ++ rest = done ++ p :: rest := by simp
    have hcntA : countNZ m < 128 := by
      have h1 := hinv.countNZ_le
      have h2 := distinct_keys_mono done (p :: rest)
      omega
    have hcapB : (keysOf (nzOf (done ++ [p]))).toFinset.card ≤ 127 := by
      have h2 := distinct_keys_mono (done ++ [p]) rest
      rw [heq] at h2
      omega
    obtain ⟨m2, hins, hinv2⟩ := hinv_insert m done p.1 p.2 hinv
      (fun q hq => (hpk q (List.mem_append_left _ hq)).1) hpk1 hpm hcntA hcapB
    obtain ⟨m3, hrest, hinv3⟩ := ih (done ++ [p]) m2 hinv2
      (by rw [heq]; exact hpk) (by rw [heq]; exact hcap)
    refine ⟨m3, ?_, by rw [← heq]; exact hinv3⟩
    rw [hmapInsertList, hins]
    exact hrest

theorem hinv_list (ps : List (Nat × Nat))
    (hpk : ∀ p ∈ ps, p.1 < 2 ^ 62 ∧ p.2 < U64)
    (hcap : (keysOf (nzOf ps)).toFinset.card ≤ 127) :
    ∃ m, hmapInsertList emptyH ps = some m ∧ HInv m ps := by
  have h := hinv_list_go ps [] emptyH hinv_empty (by simpa using hpk)
    (by simpa using hcap)
  simpa using h

/-- The hashmap refines the abstract accumulated-mask map: building from the
empty table succeeds and `get` returns exactly `orMasks` for every small key
(`0` for keys never inserted). -/
theorem hmap_get_spec (ps : List (Nat × Nat))
    (hpk : ∀ p ∈ ps, p.1 < 2 ^ 62 ∧ p.2 < U64)
    (hcap : (keysOf (nzOf ps)).toFinset.card ≤ 127) :
    ∃ m, hmapInsertList emptyH ps = some m ∧
      ∀ q, q < 2 ^ 62 → getH m q = some (orMasks ps q) := by
  obtain ⟨m, hl, hinv⟩ := hinv_list ps hpk hcap
  refine ⟨m, hl, fun q hq => ?_⟩
  by_cases hmem : q ∈ keysOf ps
  · exact hinv.getsome q hmem
  · rw [orMasks_not_mem ps q hmem]
    have hcnt : countNZ m < 128 := by
      have h1 := hinv.countNZ_le
      omega
    exact hinv.get_absent hcnt q hq hmem

/-! ### The `PatternMatchVector` invariant -/

/-- The pairs routed to the hashmap: keys outside `[0, 255]`. -/
def wideOf (ps : List (Nat × Nat)) : List (Nat × Nat) := ps.filter fun p => 255 < p.1

theorem wideOf_append (ps qs : List (Nat × Nat)) :
    wideOf (ps ++ qs) = wideOf ps ++ wideOf qs := List.filter_append _ _

theorem orFold_wide (q : Nat) (hq : 255 < q) :
    ∀ (ps : List (Nat × Nat)) (acc : Nat),
      (wideOf ps).foldl (orStep q) acc = ps.foldl (orStep q) acc := by
  intro ps
  induction ps with
  | nil => intro acc; rfl
  | cons p rest ih =>
    intro acc
    by_cases hp : 255 < p.1
    · rw [show wideOf (p :: rest) = p :: wideOf rest by simp [wideOf, hp],
        List.foldl_cons, List.foldl_cons, ih]
    · have hne : p.1 ≠ q := by omega
      rw [show wideOf (p :: rest) = wideOf rest by simp [wideOf, hp],
        List.foldl_cons, orStep, if_neg hne, ih]

theorem orMasks_wide (ps : List (Nat × Nat)) (q : Nat) (hq : 255 < q) :
    orMasks (wideOf ps) q = orMasks ps q := orFold_wide q hq ps 0

theorem mem_wide_keys (ps : List (Nat × Nat)) (q : Nat) (hq : 255 < q)
    (h : q ∈ keysOf ps) : q ∈ keysOf (wideOf ps) := by
  obtain ⟨p, hp, hpe⟩ := List.mem_map.mp h
  refine List.mem_map.mpr ⟨p, ?_, hpe⟩
  rw [wideOf, List.mem_filter]
  exact ⟨hp, by simp [hpe ▸ hq]⟩

/-- The reachable-state invariant of `PatternMatchVector`: the direct table
holds exactly the accumulated masks of the byte keys, and the hashmap
satisfies its invariant for the wide part of the history. -/
structure PInv (v : PMV) (ps : List (Nat × Nat)) : Prop where
  tbl : ∀ a : Fin 256, v.ascii a = orMasks ps a.val
  hmap : HInv v.map (wideOf ps)

theorem pinv_empty : PInv pmv0 [] := by
  refine ⟨fun a => rfl, ?_⟩
  have h : wideOf ([] : List (Nat × Nat)) = [] := rfl
  rw [h]
  exact hinv_empty

/-- Running a `PatternMatchVector` insert history from an invariant state:
byte keys are unrestricted, wide keys must be below `2 ^ 62`, and at most 127
distinct wide non-zero-mask keys may occur. -/
theorem pinv_list_go : ∀ (rest done : List (Nat × Nat)) (v : PMV),
    PInv v done →
    (∀ p ∈ done ++ rest, (255 < p.1 → p.1 < 2 ^ 62) ∧ p.2 < U64) →
    (keysOf (nzOf (wideOf (done ++ rest)))).toFinset.card ≤ 127 →
    ∃ v2, pmvInsertList v rest = some v2 ∧ PInv v2 (done ++ rest) := by
  intro rest
  induction rest with
  | nil =>
    intro done v hinv hpk hcap
    exact ⟨v, rfl, by simpa using hinv⟩
  | cons p rest ih =>
    intro done v hinv hpk hcap
    have hpm : p.2 < U64 := (hpk p (by simp)).2
    have heq : done ++ [p] ++ rest = done ++ p :: rest := by simp
    by_cases hkey : p.1 ≤ 255
    · -- byte key: direct-table update, hashmap untouched
      have hidx : p.1 < 256 := by omega
      have hwide_eq : wideOf (done ++ [p]) = wideOf done := by
        have h1 : wideOf [p] = [] := by
          rw [wideOf, List.filter_cons]
          simp only [decide_eq_true_eq]
          rw [if_neg (by omega)]
          rfl
        rw [wideOf_append, h1, List.append_nil]
      have hstep : pmvInsertMask v p.1 p.2 = some (pmvAsciiUpd v p.1 p.2 hidx) := by
        rw [pmvInsertMask, dif_pos hkey]
        rfl
      have hinv2 : PInv (pmvAsciiUpd v p.1 p.2 hidx) (done ++ [p]) := by
        refine ⟨?_, ?_⟩
        · intro a
          show Function.update v.ascii ⟨p.1, hidx⟩
            ((v.ascii ⟨p.1, hidx⟩ ||| p.2) % U64) a = orMasks (done ++ [p]) a.val
          have hmo : orMasks (done ++ [p]) a.val =
              if p.1 = a.val then (orMasks done a.val ||| p.2) % U64
              else orMasks done a.val := orMasks_append_one done p.1 p.2 a.val
          rw [Function.update_apply, hmo]
          by_cases hav : a.val = p.1
          · have ha : a = ⟨p.1, hidx⟩ := Fin.ext hav
            rw [if_pos ha, if_pos hav.symm, ha, hinv.tbl]
          · have ha : a ≠ ⟨p.1, hidx⟩ := fun hc => hav (by rw [hc])
            rw [if_neg ha, if_neg (fun hc => hav hc.symm), hinv.tbl]
        · show HInv v.map (wideOf (done ++ [p]))
          rw [hwide_eq]
          exact hinv.hmap
      obtain ⟨v3, hrest, hinv3⟩ := ih (done ++ [p]) (pmvAsciiUpd v p.1 p.2 hidx) hinv2
        (by rw [heq]; exact hpk) (by rw [heq]; exact hcap)
      refine ⟨v3, ?_, by rw [← heq]; exact hinv3⟩
      rw [pmvInsertList, hstep]
      exact hrest
    · -- wide key: hashmap insert
      have hkw : p.1 < 2 ^ 62 := (hpk p (by simp)).1 (by omega)
      have hwide_eq : wideOf (done ++ [p]) = wideOf done ++ [p] := by
        have h1 : wideOf [p] = [p] := by
          simp only [wideOf]
          rw [List.filter_cons]
          simp only [decide_eq_true_eq]
          rw [if_pos (by omega)]
          rfl
        rw [wideOf_append, h1]
      have hcntA : countNZ v.map < 128 := by
        have h1 := hinv.hmap.countNZ_le
        have h2 : (keysOf (nzOf (wideOf done))).toFinset.card ≤
            (keysOf (nzOf (wideOf (done ++ p :: rest)))).toFinset.card := by
          rw [wideOf_append]
          exact distinct_keys_mono _ _
        omega
      have hcapB : (keysOf (nzOf (wideOf done ++ [p]))).toFinset.card ≤ 127 := by
        have h3 : wideOf (done ++ [p]) ++ wideOf rest = wideOf (done ++ p :: rest) := by
          rw [← wideOf_append, heq]
        have h2 := distinct_keys_mono (wideOf (done ++ [p])) (wideOf rest)
        rw [h3, hwide_eq] at h2
        omega
      have hwk : ∀ p' ∈ wideOf done, p'.1 < 2 ^ 62 := by
        intro p' hp'
        rw [wideOf, List.mem_filter] at hp'
        have h255 : 255 < p'.1 := by simpa using hp'.2
        exact (hpk p' (List.mem_append_left _ hp'.1)).1 h255
      obtain ⟨m2, hins, hinv2m⟩ := hinv_insert v.map (wideOf done) p.1 p.2
        hinv.hmap hwk hkw hpm hcntA hcapB
      have hinv2 : PInv { v with map := m2 } (done ++ [p]) := by
        refine ⟨?_, ?_⟩
        · intro a
          show v.ascii a = orMasks (done ++ [p]) a.val
          have hmo : orMasks (done ++ [p]) a.val =
              if p.1 = a.val then (orMasks done a.val ||| p.2) % U64
              else orMasks done a.val := orMasks_append_one done p.1 p.2 a.val
          rw [hmo, if_neg (by have := a.isLt; omega), hinv.tbl]
        · show HInv m2 (wideOf (done ++ [p]))
          rw [hwide_eq]
          exact hinv2m
      obtain ⟨v3, hrest, hinv3⟩ := ih (done ++ [p]) { v with map := m2 } hinv2
        (by rw [heq]; exact hpk) (by rw [heq]; exact hcap)
      refine ⟨v3, ?_, by rw [← heq]; exact hinv3⟩
      rw [pmvInsertList, pmvInsertMask, dif_neg hkey, hins]
      exact hrest

theorem pinv_list (ps : List (Nat × Nat))
    (hpk : ∀ p ∈ ps, (255 < p.1 → p.1 < 2 ^ 62) ∧ p.2 < U64)
    (hcap : (keysOf (nzOf (wideOf ps))).toFinset.card ≤ 127) :
    ∃ v, pmvInsertList pmv0 ps = some v ∧ PInv v ps := by
  have h := pinv_list_go ps [] pmv0 pinv_empty (by simpa using hpk)
    (by simpa using hcap)
  simpa using h

/-- Reading with `PatternMatchVector::get` on an invariant state returns the accumulated
mask of its key, for every key below `2 ^ 62`. -/
theorem pinv_get (v : PMV) (ps : List (Nat × Nat)) (hinv : PInv v ps)
    (hcap : (keysOf (nzOf (wideOf ps))).toFinset.card ≤ 127) :
    ∀ q, q < 2 ^ 62 → pmvGet v q = some (orMasks ps q) := by
  intro q hq
  rw [pmvGet]
  by_cases hb : q ≤ 255
  · rw [dif_pos hb]
    have ht := hinv.tbl ⟨q, by omega⟩
    rw [ht]
  · rw [dif_neg hb]
    have hq255 : 255 < q := by omega
    by_cases hmem : q ∈ keysOf (wideOf ps)
    · rw [hinv.hmap.getsome q hmem, orMasks_wide ps q hq255]
    · have hcnt : countNZ v.map < 128 := by
        have h1 := hinv.hmap.countNZ_le
        omega
      rw [hinv.hmap.get_absent hcnt q hq hmem,
        ← orMasks_wide ps q hq255, orMasks_not_mem _ q hmem]

/-- Master theorem for `PatternMatchVector`: under the wide-key bound and the
127-distinct-wide-keys capacity margin, an insert history builds successfully
and `get` agrees with the abstract accumulated-mask map on every key below
`2 ^ 62`. -/
theorem pmv_master (ps : List (Nat × Nat))
    (hpk : ∀ p ∈ ps, (255 < p.1 → p.1 < 2 ^ 62) ∧ p.2 < U64)
    (hcap : (keysOf (nzOf (wideOf ps))).toFinset.card ≤ 127) :
    ∃ v, pmvInsertList pmv0 ps = some v ∧
      ∀ q, q < 2 ^ 62 → pmvGet v q = some (orMasks ps q) := by
  obtain ⟨v, hl, hinv⟩ := pinv_list ps hpk hcap
  exact ⟨v, hl, pinv_get v ps hinv hcap⟩

/-! ### The bulk insert as an insert history

The running `mask <<= 1` of the bulk `PatternMatchVector::insert` makes
position `i` contribute the pair `(s[i], 2 ^ i mod 2 ^ 64)`. -/

/-- The `(key, mask)` pairs contributed by a sequence starting at position
`t`. -/
def seqPairsFrom : Nat → List Nat → List (Nat × Nat)
  | _, [] => []
  | t, k :: rest => (k, 2 ^ t % U64) :: seqPairsFrom (t + 1) rest

/-- The `(key, mask)` pairs contributed by a whole pattern. -/
def seqPairs (s : List Nat) : List (Nat × Nat) := seqPairsFrom 0 s

theorem pmvInsertSeqAux_eq_list : ∀ (s : List Nat) (t : Nat) (v : PMV),
    pmvInsertSeqAux v (2 ^ t % U64) s = pmvInsertList v (seqPairsFrom t s) := by
  intro s
  induction s with
  | nil => intro t v; rfl
  | cons k rest ih =>
    intro t v
    have hmask : (2 ^ t % U64 * 2) % U64 = 2 ^ (t + 1) % U64 := by
      rw [Nat.mod_mul_mod, ← pow_succ]
    cases hm : pmvInsertMask v k (2 ^ t % U64) with
    | none => simp only [pmvInsertSeqAux, seqPairsFrom, pmvInsertList, hm]
    | some v2 =>
      simp only [pmvInsertSeqAux, seqPairsFrom, pmvInsertList, hm, hmask]
      exact ih (t + 1) v2

theorem pmvInsertSeq_eq_list (v : PMV) (s : List Nat) :
    pmvInsertSeq v s = pmvInsertList v (seqPairs s) := by
  have h1 : (1 : Nat) = 2 ^ 0 % U64 := by norm_num [U64]
  rw [pmvInsertSeq, seqPairs, h1, pmvInsertSeqAux_eq_list]

theorem seqPairsFrom_length : ∀ (s : List Nat) (t : Nat),
    (seqPairsFrom t s).length = s.length := by
  intro s
  induction s with
  | nil => intro t; rfl
  | cons k rest ih =>
    intro t
    rw [seqPairsFrom, List.length_cons, List.length_cons, ih]

theorem seqPairsFrom_get_mem : ∀ (s : List Nat) (t i : Nat) (h : i < s.length),
    (s.get ⟨i, h⟩, 2 ^ (t + i) % U64) ∈ seqPairsFrom t s := by
  intro s
  induction s with
  | nil => intro t i h; cases h
  | cons k rest ih =>
    intro t i h
    cases i with
    | zero =>
      rw [seqPairsFrom]
      exact List.mem_cons_self _ _
    | succ i' =>
      rw [seqPairsFrom]
      refine List.mem_cons_of_mem _ ?_
      have hh : t + (i' + 1) = (t + 1) + i' := by omega
      rw [hh]
      exact ih (t + 1) i' (by simpa using h)

theorem seqPairsFrom_keys : ∀ (s : List Nat) (t : Nat) (k : Nat),
    k ∈ keysOf (seqPairsFrom t s) ↔ k ∈ s := by
  intro s
  induction s with
  | nil => intro t k; simp [seqPairsFrom, keysOf]
  | cons q rest ih =>
    intro t k
    rw [seqPairsFrom]
    simp only [keysOf, List.map_cons, List.mem_cons]
    exact or_congr Iff.rfl (ih (t + 1) k)

theorem seqPairsFrom_mem : ∀ (s : List Nat) (t : Nat) (p : Nat × Nat),
    p ∈ seqPairsFrom t s → p.1 ∈ s ∧ p.2 < U64 := by
  intro s
  induction s with
  | nil => intro t p h; cases h
  | cons k rest ih =>
    intro t p h
    rw [seqPairsFrom] at h
    rcases List.mem_cons.mp h with h | h
    · rw [h]
      exact ⟨List.mem_cons_self _ _, Nat.mod_lt _ (by norm_num [U64])⟩
    · obtain ⟨h1, h2⟩ := ih (t + 1) p h
      exact ⟨List.mem_cons_of_mem _ h1, h2⟩

theorem seqPairsFrom_zeros : ∀ (s : List Nat) (t : Nat), 64 ≤ t →
    ∀ p ∈ seqPairsFrom t s, p.2 = 0 := by
  intro s
  induction s with
  | nil => intro t ht p h; cases h
  | cons k rest ih =>
    intro t ht p h
    rw [seqPairsFrom] at h
    rcases List.mem_cons.mp h with h | h
    · rw [h]
      show 2 ^ t % U64 = 0
      have hU : U64 = 2 ^ 64 := rfl
      rw [hU]
      exact Nat.mod_eq_zero_of_dvd (pow_dvd_pow 2 ht)
    · exact ih (t + 1) (by omega) p h

theorem seqPairsFrom_append : ∀ (xs ys : List Nat) (t : Nat),
    seqPairsFrom t (xs ++ ys) = seqPairsFrom t xs ++ seqPairsFrom (t + xs.length) ys := by
  intro xs
  induction xs with
  | nil => intro ys t; simp [seqPairsFrom]
  | cons k rest ih =>
    intro ys t
    rw [List.cons_append, seqPairsFrom, seqPairsFrom, ih ys (t + 1), List.cons_append]
    have h : t + 1 + rest.length = t + (k :: rest).length := by
      rw [List.length_cons]
      omega
    rw [h]

/-! ### Further generic support lemmas -/

theorem distinct_le_length (ps : List (Nat × Nat)) :
    (keysOf (nzOf ps)).toFinset.card ≤ ps.length := by
  calc (keysOf (nzOf ps)).toFinset.card ≤ (keysOf (nzOf ps)).length :=
        (keysOf (nzOf ps)).toFinset_card_le
    _ = (nzOf ps).length := by rw [keysOf, List.length_map]
    _ ≤ ps.length := List.length_filter_le _ _

theorem wide_distinct_le_length (ps : List (Nat × Nat)) :
    (keysOf (nzOf (wideOf ps))).toFinset.card ≤ ps.length :=
  le_trans (distinct_le_length _) (List.length_filter_le _ _)

theorem card_keys_nz_le (l : List (Nat × Nat)) :
    (keysOf (nzOf l)).toFinset.card ≤ (keysOf l).toFinset.card := by
  apply Finset.card_le_card
  intro a ha
  rw [List.mem_toFinset] at ha ⊢
  exact keysOf_nzOf_subset l a ha

theorem orFold_zeros (q : Nat) :
    ∀ (ps : List (Nat × Nat)), (∀ p ∈ ps, p.2 = 0) →
      ∀ acc, acc < U64 → ps.foldl (orStep q) acc = acc := by
  intro ps
  induction ps with
  | nil => intro _ acc _; rfl
  | cons p rest ih =>
    intro hz acc hacc
    rw [List.foldl_cons, orStep]
    have hp0 : p.2 = 0 := hz p (by simp)
    have hstep : (if p.1 = q then (acc ||| p.2) % U64 else acc) = acc := by
      rw [hp0, Nat.or_zero, Nat.mod_eq_of_lt hacc, ite_self]
    rw [hstep]
    exact ih (fun p2 hp2 => hz p2 (List.mem_cons_of_mem _ hp2)) acc hacc

theorem orMasks_append_zeros (ps qs : List (Nat × Nat))
    (hz : ∀ p ∈ qs, p.2 = 0) (q : Nat) :
    orMasks (ps ++ qs) q = orMasks ps q := by
  rw [orMasks, List.foldl_append]
  exact orFold_zeros q qs hz _ (orMasks_lt ps q)

theorem pmvInsertList_append (v : PMV) (xs ys : List (Nat × Nat)) :
    pmvInsertList v (xs ++ ys) =
      (pmvInsertList v xs).bind fun v2 => pmvInsertList v2 ys := by
  induction xs generalizing v with
  | nil => rfl
  | cons p rest ih =>
    rw [List.cons_append, pmvInsertList, pmvInsertList]
    cases hm : pmvInsertMask v p.1 p.2 with
    | none => rfl
    | some v2 => exact ih v2

theorem pmvInsertList_single (v : PMV) (p : Nat × Nat) :
    pmvInsertList v [p] = pmvInsertMask v p.1 p.2 := by
  rw [pmvInsertList]
  cases pmvInsertMask v p.1 p.2 <;> rfl

/-- If no slot accepts the key, the probe loop runs out of any fuel: the C++
loop never returns. -/
theorem lookupF_none_of_all_false (m : HMap) (key : Nat)
    (h : ∀ j, slotOk m (key % U64) j = false) :
    ∀ fuel, lookupF m key fuel = none := by
  have haux : ∀ fuel (i p : Int), lookupAux m (key % U64) fuel i p = none := by
    intro fuel
    induction fuel with
    | zero => intro i p; rfl
    | succ f ih =>
      intro i p
      rw [lookupAux_succ]
      split
      · rw [h (probeIdx i p), if_neg (by simp)]
        exact ih _ _
      · rfl
  intro fuel
  rw [lookupF, if_neg (by simp [h (startIdx key)]), haux]

theorem or_mod_or_self (x mask : Nat) :
    ((x ||| mask) % U64 ||| mask) % U64 = (x ||| mask) % U64 := by
  apply Nat.eq_of_testBit_eq
  intro i
  have h1 : ∀ y : Nat, (y % U64).testBit i = (decide (i < 64) && y.testBit i) :=
    fun y => Nat.testBit_mod_two_pow y 64 i
  simp only [h1, Nat.testBit_or]
  by_cases hi : i < 64
  · simp [hi, Bool.or_assoc]
  · simp [hi]

/-- Helpers to read off the shape of a `BRes` result. -/
def bresGetD {α : Type} (r : BRes α) (d : α) : α :=
  match r with
  | .ok a => a
  | _ => d

def bresIsOk {α : Type} : BRes α → Bool
  | .ok _ => true
  | _ => false

def bresIsAssert {α : Type} : BRes α → Bool
  | .assertViolation => true
  | _ => false

def bresIsOob {α : Type} : BRes α → Bool
  | .oob => true
  | _ => false

theorem bres_ok_of_isOk {α : Type} (r : BRes α) (d : α) (h : bresIsOk r = true) :
    r = .ok (bresGetD r d) := by
  cases r with
  | ok a => rfl
  | assertViolation => cases h
  | oob => cases h

/-! ### Claim C5 — probe termination -/

/-- C5 (amended): for every key below `2 ^ 62` (every character code of the
byte, 16-bit and 32-bit string types), `BitvectorHashmap::lookup` — and hence
`insert` and `get` — terminates whenever strictly fewer than 128 slots hold a
non-zero value or the key is already present.  As literally stated (for every
`uint64_t` key) the claim fails: see the counterexample. -/
theorem c5_probe_termination (m : HMap) (key : Nat) (hk : key < 2 ^ 62)
    (hpre : countNZ m < 128 ∨ ∃ j, (m j).key = key ∧ (m j).value ≠ 0) :
    (∃ h, lookupF m key FUEL = some h) ∧
    (∀ mask, (insertMask m key mask).isSome = true) ∧
    (getH m key).isSome = true := by
  have hs : ∃ j, slotOk m key j = true := by
    rcases hpre with hcnt | ⟨j, hkj, hvj⟩
    · obtain ⟨j, hj⟩ := exists_empty_slot m hcnt
      exact ⟨j, slotOk_of_empty m key j hj⟩
    · exact ⟨j, by simp [slotOk, hkj]⟩
  obtain ⟨h, hl, _⟩ := lookup_terminates m key hk hs
  refine ⟨⟨h, hl⟩, ?_, ?_⟩
  · intro mask
    rw [insertMask, hl]
    rfl
  · rw [getH, hl]
    rfl

theorem c5_probe_termination_witness :
    (300 < 2 ^ 62 ∧ countNZ emptyH < 128) ∧
    ((∃ h, lookupF emptyH 300 FUEL = some h) ∧
     (∀ mask, (insertMask emptyH 300 mask).isSome = true) ∧
     (getH emptyH 300).isSome = true) :=
  ⟨⟨by decide, by decide⟩,
   c5_probe_termination emptyH 300 (by decide) (Or.inl (by decide))⟩

/-- The 32-element multiplicative orbit of slot 127 under `i ↦ 5 i mod 128`:
the slots visited forever by the probe of key `2 ^ 64 - 1`, whose signed
`perturb` stays `-1`. -/
def orbitList : List Nat :=
  [127, 123, 103, 3, 15, 75, 119, 83, 31, 27, 7, 35, 47, 107, 23, 115,
   63, 59, 39, 67, 79, 11, 55, 19, 95, 91, 71, 99, 111, 43, 87, 51]

/-- Insert history filling exactly the orbit slots (key `256 + j` lands in
slot `j`). -/
def psOrbit : List (Nat × Nat) := orbitList.map fun j => (256 + j, 1)

/-- The table with the 32 orbit slots occupied. -/
def mOrbit : HMap := (hmapInsertList emptyH psOrbit).getD emptyH

theorem mOrbit_orbit_closed : ∀ x ∈ orbitList, (x * 5) % 128 ∈ orbitList := by
  decide

theorem mOrbit_orbit_occupied : ∀ j : Fin 128, j.val ∈ orbitList →
    slotOk mOrbit (2 ^ 64 - 1) j = false := by decide

theorem mOrbit_aux_none : ∀ fuel (a : Nat), a ∈ orbitList →
    lookupAux mOrbit (2 ^ 64 - 1) fuel ↑a (-1) = none := by
  intro fuel
  induction fuel with
  | zero => intro a _; rfl
  | succ f ih =>
    intro a ha
    have ha128 : a < 128 := by
      have hall : ∀ x ∈ orbitList, x < 128 := by decide
      exact hall a ha
    have hp : probeInt ↑a (-1) = ↑((a * 5) % 128) := by
      rw [probeInt]
      have he : (↑a * 5 + -1 + 1 : Int) = ↑(a * 5) := by push_cast; ring
      have hlt : ((a * 5 : Nat) : Int) < 2 ^ 63 := by
        have : a * 5 < 2 ^ 63 := by omega
        exact_mod_cast this
      rw [he, wrap64_id _ (le_trans (by norm_num) (Int.natCast_nonneg _)) hlt]
      exact tmod_ofNat _ 128
    rw [lookupAux_succ_nat mOrbit _ f _ _ ((a * 5) % 128)
      (Nat.mod_lt _ (by omega)) hp]
    have hmem2 : (a * 5) % 128 ∈ orbitList := mOrbit_orbit_closed a ha
    have hocc := mOrbit_orbit_occupied ⟨(a * 5) % 128, Nat.mod_lt _ (by omega)⟩ hmem2
    have hocc2 : slotOk mOrbit 18446744073709551615
        ⟨a * 5 % 128, Nat.mod_lt _ (by omega)⟩ = false := hocc
    rw [if_neg (by simp [hocc, hocc2])]
    have hsar : sar5 (-1) = -1 := by decide
    rw [hsar]
    exact ih _ hmem2

/-- C5 counterexample: the table `mOrbit` has only 32 occupied slots (far
fewer than 128), yet `lookup` of the `uint64_t` key `2 ^ 64 - 1` never
returns for any amount of fuel: the signed `perturb` is `-1` forever and the
probe cycles through the 32 occupied orbit slots. -/
theorem c5_probe_termination_cx :
    (hmapInsertList emptyH psOrbit).isSome = true ∧
    countNZ mOrbit < 128 ∧
    (∀ fuel, lookupF mOrbit (2 ^ 64 - 1) fuel = none) := by
  refine ⟨by decide, by decide, ?_⟩
  intro fuel
  rw [lookupF]
  rw [if_neg (by decide)]
  have hm : (2 ^ 64 - 1) % U64 = 2 ^ 64 - 1 := by decide
  rw [hm]
  have hstart : (((startIdx (2 ^ 64 - 1)).val : Nat) : Int) = ((127 : Nat) : Int) := by
    decide
  have hp64 : toInt64 (2 ^ 64 - 1) = -1 := by decide
  rw [hstart, hp64]
  exact mOrbit_aux_none fuel 127 (by decide)

/-! ### Claim C3 — collision correctness -/

/-- C3 (amended): for any two distinct keys below `2 ^ 62` that are congruent
modulo 128, inserting them at two positions and reading each back returns
only that key's own bit.  As literally stated (for arbitrary `uint64_t`
keys) the claim fails: see the counterexample. -/
theorem c3_collision_correct (k1 k2 p1 p2 : Nat) (hk1 : k1 < 2 ^ 62)
    (hk2 : k2 < 2 ^ 62) (hne : k1 ≠ k2) (hcong : k1 % 128 = k2 % 128)
    (hp1 : p1 < 64) (hp2 : p2 < 64) (hpne : p1 ≠ p2) :
    ∃ m1 m2, hmInsert emptyH k1 p1 = some m1 ∧ hmInsert m1 k2 p2 = some m2 ∧
      getH m2 k1 = some (2 ^ p1) ∧ getH m2 k2 = some (2 ^ p2) := by
  have hm1U : 2 ^ p1 % U64 = 2 ^ p1 := by
    apply Nat.mod_eq_of_lt
    have h : (2:Nat) ^ p1 < 2 ^ 64 := Nat.pow_lt_pow_right (by omega) (by omega)
    simpa [U64] using h
  have hm2U : 2 ^ p2 % U64 = 2 ^ p2 := by
    apply Nat.mod_eq_of_lt
    have h : (2:Nat) ^ p2 < 2 ^ 64 := Nat.pow_lt_pow_right (by omega) (by omega)
    simpa [U64] using h
  have hpk : ∀ p ∈ [(k1, 2 ^ p1 % U64), (k2, 2 ^ p2 % U64)],
      p.1 < 2 ^ 62 ∧ p.2 < U64 := by
    intro p hp
    rcases List.mem_cons.mp hp with h | h
    · rw [h]; exact ⟨hk1, Nat.mod_lt _ (by norm_num [U64])⟩
    · rcases List.mem_cons.mp h with h2 | h2
      · rw [h2]; exact ⟨hk2, Nat.mod_lt _ (by norm_num [U64])⟩
      · cases h2
  have hcap : (keysOf (nzOf [(k1, 2 ^ p1 % U64), (k2, 2 ^ p2 % U64)])).toFinset.card
      ≤ 127 := by
    have h := distinct_le_length [(k1, 2 ^ p1 % U64), (k2, 2 ^ p2 % U64)]
    simp only [List.length_cons, List.length_nil] at h
    omega
  obtain ⟨m, hl, hget⟩ := hmap_get_spec [(k1, 2 ^ p1 % U64), (k2, 2 ^ p2 % U64)]
    hpk hcap
  cases hi1 : insertMask emptyH k1 (2 ^ p1 % U64) with
  | none =>
    have hl2 : (none : Option HMap) = some m := by
      rw [hmapInsertList, hi1] at hl
      exact hl
    cases hl2
  | some mm1 =>
    cases hi2 : insertMask mm1 k2 (2 ^ p2 % U64) with
    | none =>
      have hl2 : (none : Option HMap) = some m := by
        rw [hmapInsertList, hi1] at hl
        have hl3 : hmapInsertList mm1 [(k2, 2 ^ p2 % U64)] = some m := hl
        rw [hmapInsertList, hi2] at hl3
        exact hl3
      cases hl2
    | some mm2 =>
      have hl2 : mm2 = m := by
        rw [hmapInsertList, hi1] at hl
        have hl3 : hmapInsertList mm1 [(k2, 2 ^ p2 % U64)] = some m := hl
        rw [hmapInsertList, hi2] at hl3
        have hl4 : (some mm2 : Option HMap) = some m := hl3
        injection hl4
      have hme1 : orMasks [(k1, 2 ^ p1 % U64), (k2, 2 ^ p2 % U64)] k1 = 2 ^ p1 := by
        rw [orMasks, List.foldl_cons, List.foldl_cons, List.foldl_nil, orStep,
          orStep, if_pos rfl, if_neg (fun hc => hne hc.symm), Nat.zero_or,
          hm1U, hm1U]
      have hme2 : orMasks [(k1, 2 ^ p1 % U64), (k2, 2 ^ p2 % U64)] k2 = 2 ^ p2 := by
        rw [orMasks, List.foldl_cons, List.foldl_cons, List.foldl_nil, orStep,
          orStep, if_neg hne, if_pos rfl, Nat.zero_or, hm2U, hm2U]
      refine ⟨mm1, mm2, ?_, ?_, ?_, ?_⟩
      · rw [hmInsert]; exact hi1
      · rw [hmInsert]; exact hi2
      · rw [hl2, hget k1 hk1, hme1]
      · rw [hl2, hget k2 hk2, hme2]

theorem c3_collision_correct_witness :
    (256 % 128 = 384 % 128 ∧ (256 : Nat) ≠ 384) ∧
    (∃ m1 m2, hmInsert emptyH 256 3 = some m1 ∧ hmInsert m1 384 7 = some m2 ∧
      getH m2 256 = some (2 ^ 3) ∧ getH m2 384 = some (2 ^ 7)) :=
  ⟨⟨by decide, by decide⟩,
   c3_collision_correct 256 384 3 7 (by decide) (by decide) (by decide)
     (by decide) (by decide) (by decide) (by decide)⟩

/-- The single-key table holding `2 ^ 64 - 1` at slot 127. -/
def mC3a : HMap := (hmInsert emptyH (2 ^ 64 - 1) 3).getD emptyH

/-- In `mC3a`, looking up `2 ^ 63 - 1` computes the probe value
`(127 * 5 + (2 ^ 63 - 1) + 1) mod 128` whose int64 sum overflows to a
negative value, so the table is subscripted at index `-5`: out of bounds, no
fuel ever returns. -/
theorem mC3a_ub_none : ∀ fuel, lookupF mC3a (2 ^ 63 - 1) fuel = none := by
  intro fuel
  rw [lookupF, if_neg (by decide)]
  cases fuel with
  | zero => rfl
  | succ f =>
    rw [lookupAux_succ, if_neg (by decide)]

/-- C3 counterexample: the `uint64_t` keys `2 ^ 64 - 1` and `2 ^ 63 - 1` are
distinct and congruent modulo 128, the first inserts fine (slot 127), but
inserting the second never returns: its probe index computation overflows
int64 and produces the negative array index `-5`. -/
theorem c3_collision_correct_cx :
    (2 ^ 64 - 1) % 128 = (2 ^ 63 - 1) % 128 ∧
    (2 ^ 64 - 1 : Nat) ≠ 2 ^ 63 - 1 ∧
    (hmInsert emptyH (2 ^ 64 - 1) 3).isSome = true ∧
    (hmInsert mC3a (2 ^ 63 - 1) 7).isSome = false ∧
    (∀ fuel, lookupF mC3a (2 ^ 63 - 1) fuel = none) := by
  refine ⟨by decide, by decide, by decide, ?_, mC3a_ub_none⟩
  rw [hmInsert, insertMask, mC3a_ub_none FUEL]
  rfl

/-! ### Claim C8 — idempotent OR -/

/-- C8 (confirmed): inserting the same `(key, pos)` pair twice into a
`PatternMatchVector` — any state, any key — produces exactly the state of
inserting it once, hence the same `get` result for every query key. -/
theorem c8_idempotent_or (v : PMV) (key pos : Nat) (hpos : pos < 64) :
    (pmvInsertOne v key pos).bind (fun v2 => pmvInsertOne v2 key pos) =
      pmvInsertOne v key pos ∧
    ∀ q, ((pmvInsertOne v key pos).bind (fun v2 => pmvInsertOne v2 key pos)).bind
        (fun v2 => pmvGet v2 q) =
      (pmvInsertOne v key pos).bind fun v2 => pmvGet v2 q := by
  have hstate : (pmvInsertOne v key pos).bind (fun v2 => pmvInsertOne v2 key pos) =
      pmvInsertOne v key pos := by
    by_cases hkey : key ≤ 255
    · have h256 : key < 256 := by omega
      have hb : ∀ w : PMV, pmvInsertMask w key (2 ^ pos % U64) =
          some (pmvAsciiUpd w key (2 ^ pos % U64) h256) := by
        intro w
        rw [pmvInsertMask, dif_pos hkey]
        rfl
      rw [pmvInsertOne, hb v]
      show pmvInsertOne (pmvAsciiUpd v key (2 ^ pos % U64) h256) key pos =
        some (pmvAsciiUpd v key (2 ^ pos % U64) h256)
      rw [pmvInsertOne, hb]
      congr 1
      have hval : (pmvAsciiUpd v key (2 ^ pos % U64) h256).ascii ⟨key, h256⟩ =
          (v.ascii ⟨key, h256⟩ ||| 2 ^ pos % U64) % U64 := by
        show Function.update v.ascii ⟨key, h256⟩ _ ⟨key, h256⟩ = _
        rw [Function.update_same]
      show pmvAsciiUpd (pmvAsciiUpd v key (2 ^ pos % U64) h256) key
        (2 ^ pos % U64) h256 = pmvAsciiUpd v key (2 ^ pos % U64) h256
      rw [pmvAsciiUpd]
      have hval2 : ((pmvAsciiUpd v key (2 ^ pos % U64) h256).ascii ⟨key, h256⟩ |||
          2 ^ pos % U64) % U64 =
          (pmvAsciiUpd v key (2 ^ pos % U64) h256).ascii ⟨key, h256⟩ := by
        rw [hval]
        exact or_mod_or_self _ _
      rw [hval2, Function.update_eq_self]
    · rw [pmvInsertOne, pmvInsertMask, dif_neg hkey]
      cases hins : insertMask v.map key (2 ^ pos % U64) with
      | none => rfl
      | some m2 =>
        show pmvInsertOne { v with map := m2 } key pos = some { v with map := m2 }
        rw [pmvInsertOne, pmvInsertMask, dif_neg hkey]
        suffices hsuff : insertMask m2 key (2 ^ pos % U64) = some m2 by
          rw [hsuff]
          rfl
        rw [insertMask] at hins
        cases hlk : lookupF v.map key FUEL with
        | none => rw [hlk] at hins; cases hins
        | some s =>
          rw [hlk, Option.map_some'] at hins
          injection hins with hm2
          have hm2s : m2 s =
              ⟨key % U64, ((v.map s).value ||| 2 ^ pos % U64) % U64⟩ := by
            rw [← hm2]
            exact Function.update_same ..
          have hm2o : ∀ j, j ≠ s → m2 j = v.map j := by
            intro j hj
            rw [← hm2]
            exact Function.update_noteq hj _ _
          have hok1 : slotOk v.map (key % U64) s = true :=
            lookupF_some_ok _ _ _ _ hlk
          have hok2 : slotOk m2 (key % U64) s = true := by
            simp [slotOk, hm2s]
          have hlk2 : lookupF m2 key FUEL = some s := by
            apply lookupF_stable v.map m2 key s ?_ hok2 FUEL hlk
            intro j hf
            by_cases hjs : j = s
            · rw [hjs, hok1] at hf; cases hf
            · rw [slotOk_congr_elem _ j (hm2o j hjs)]; exact hf
          rw [insertMask, hlk2, Option.map_some']
          congr 1
          have hval : ((m2 s).value ||| 2 ^ pos % U64) % U64 = (m2 s).value := by
            rw [hm2s]
            exact or_mod_or_self _ _
          rw [hval]
          have hkeyeq : (⟨key % U64, (m2 s).value⟩ : MapElem) = m2 s := by
            rw [hm2s]
          rw [hkeyeq, Function.update_eq_self]
  exact ⟨hstate, fun q => by rw [hstate]⟩

theorem c8_idempotent_or_witness :
    (3 < 64) ∧
    ((pmvInsertOne pmv0 999 3).bind (fun v2 => pmvInsertOne v2 999 3) =
      pmvInsertOne pmv0 999 3) :=
  ⟨by decide, (c8_idempotent_or pmv0 999 3 (by decide)).1⟩

/-! ### Claim C7 — fail-fast on out-of-range block -/

/-- C7 (amended): `assert(block < m_block_count)` catches every block index
*at or above* `m_block_count`, on both `insert` and `get`.  As literally
stated — every block outside `[0, block_count)` — the claim fails: the assert
never compares against 0, so a negative block index passes it and flows
straight into the vector subscripts (see the counterexample). -/
theorem c7_failfast (v : BPMV) (block : Int) (key pos : Nat)
    (hb : (v.blockCount : Int) ≤ block) :
    blockInsertOne v block key pos = .assertViolation ∧
    blockGet v block key = .assertViolation := by
  constructor
  · simp only [blockInsertOne]
    rw [if_neg (not_lt.mpr hb)]
  · rw [blockGet, if_neg (not_lt.mpr hb)]

theorem c7_failfast_witness :
    (((blockFresh 1).blockCount : Int) ≤ 5) ∧
    (blockInsertOne (blockFresh 1) 5 0 0 = .assertViolation ∧
     blockGet (blockFresh 1) 5 0 = .assertViolation) :=
  ⟨by decide, c7_failfast (blockFresh 1) 5 0 0 (by decide)⟩

/-- A one-character vector: one block, key 97 at block 0 bit 0. -/
def vC7 : BPMV := bresGetD (blockBuild [97]) (blockFresh 0)

/-- C7 counterexample: block index `-1` is outside `[0, block_count)` but is
not caught by the assert.  For key 0 the direct-table subscript is
`0 * 1 + (-1) = -1`: an out-of-bounds vector access, not an assert, on both
`insert` and `get`; for key 97 the subscript is `97 * 1 - 1 = 96`: in bounds,
so `get` silently returns cell 96 (another key's cell) as a normal result. -/
theorem c7_failfast_cx :
    bresIsOk (blockBuild [97]) = true ∧
    ((-1 : Int) < (vC7.blockCount : Int)) ∧
    blockGet vC7 (-1) 0 = .oob ∧
    bresIsOob (blockInsertOne vC7 (-1) 0 0) = true ∧
    bresIsAssert (blockInsertOne vC7 (-1) 0 0) = false ∧
    blockGet vC7 (-1) 97 = .ok 0 := by decide

/-! ### Claim C1 — round trip -/

/-- C1 (amended): for every pattern of length `1..64` over keys below `2 ^ 62`
(all supported character-code types), after the bulk insert, `get(p[i])`
returns a mask with bit `i` set.  As literally stated (arbitrary `uint64_t`
keys, reachable through `RF_UINT64` sequences) the claim fails: see the
counterexample. -/
theorem c1_round_trip (s : List Nat) (hk : ∀ k ∈ s, k < 2 ^ 62)
    (hlen1 : 1 ≤ s.length) (hlen : s.length ≤ 64) (i : Nat) (hi : i < s.length) :
    ∃ v w, pmvInsertSeq pmv0 s = some v ∧
      pmvGet v (s.get ⟨i, hi⟩) = some w ∧ w.testBit i = true := by
  rw [pmvInsertSeq_eq_list]
  have hpk : ∀ p ∈ seqPairs s, (255 < p.1 → p.1 < 2 ^ 62) ∧ p.2 < U64 := by
    intro p hp
    obtain ⟨h1, h2⟩ := seqPairsFrom_mem s 0 p hp
    exact ⟨fun _ => hk p.1 h1, h2⟩
  have hcap : (keysOf (nzOf (wideOf (seqPairs s)))).toFinset.card ≤ 127 := by
    have h1 := wide_distinct_le_length (seqPairs s)
    have h2 : (seqPairs s).length = s.length := seqPairsFrom_length s 0
    omega
  obtain ⟨v, hl, hget⟩ := pmv_master (seqPairs s) hpk hcap
  have hkey : s.get ⟨i, hi⟩ < 2 ^ 62 := hk _ (List.get_mem s i hi)
  refine ⟨v, orMasks (seqPairs s) (s.get ⟨i, hi⟩), hl, hget _ hkey, ?_⟩
  have hmem : (s.get ⟨i, hi⟩, 2 ^ (0 + i) % U64) ∈ seqPairs s :=
    seqPairsFrom_get_mem s 0 i hi
  have hbit : (2 ^ (0 + i) % U64).testBit i = true := by
    have hsm : 2 ^ (0 + i) % U64 = 2 ^ i := by
      rw [Nat.zero_add]
      exact Nat.mod_eq_of_lt (Nat.pow_lt_pow_right (by omega) (by omega))
    rw [hsm]
    simp [Nat.testBit_two_pow_self]
  exact orMasks_testBit (seqPairs s) _ _ i (by omega) hmem hbit

theorem c1_round_trip_witness :
    ((∀ k ∈ [71, 85, 77, 66, 79], k < 2 ^ 62) ∧
     1 ≤ ([71, 85, 77, 66, 79] : List Nat).length ∧
     ([71, 85, 77, 66, 79] : List Nat).length ≤ 64 ∧
     2 < ([71, 85, 77, 66, 79] : List Nat).length) ∧
    (∃ v w, pmvInsertSeq pmv0 [71, 85, 77, 66, 79] = some v ∧
      pmvGet v (([71, 85, 77, 66, 79] : List Nat).get ⟨2, by decide⟩) = some w ∧
      w.testBit 2 = true) :=
  ⟨⟨by decide, by decide, by decide, by decide⟩,
   c1_round_trip [71, 85, 77, 66, 79] (by decide) (by decide) (by decide) 2
     (by decide)⟩

/-- C1 counterexample: the two-element `uint64_t` pattern
`[2 ^ 64 - 1, 2 ^ 63 - 1]` has length in `1..64`, but the bulk insert never
returns a vector: both keys hash to slot 127, and the probe for the second
key computes an int64-overflowing perturbation, i.e. a negative table index
(undefined behaviour).  `get(p[0])` therefore never yields a mask at all. -/
theorem c1_round_trip_cx :
    ([2 ^ 64 - 1, 2 ^ 63 - 1] : List Nat).length = 2 ∧
    ¬ ∃ v w, pmvInsertSeq pmv0 [2 ^ 64 - 1, 2 ^ 63 - 1] = some v ∧
      pmvGet v (2 ^ 64 - 1) = some w ∧ w.testBit 0 = true := by
  refine ⟨rfl, ?_⟩
  rintro ⟨v, w, hv, -, -⟩
  have h1 : (pmvInsertSeq pmv0 [2 ^ 64 - 1, 2 ^ 63 - 1]).isSome = true := by
    rw [hv]; rfl
  have h2 : (pmvInsertSeq pmv0 [2 ^ 64 - 1, 2 ^ 63 - 1]).isSome = false := by
    decide
  rw [h2] at h1
  cases h1

/-! ### Claim C2 — zero default -/

/-- C2 (amended): in a `PatternMatchVector` built from any insert history of
keys below `2 ^ 62` with at most **127** distinct non-zero-mask wide keys,
`get` of every key never inserted returns 0, on both the direct-table path
and the hashmap path.  As literally stated — "at most 128 distinct keys
outside `[0, 255]`" — the claim fails at exactly 128, where the hashmap is
full and an absent key's probe loop never returns: see the counterexample. -/
theorem c2_zero_default (ps : List (Nat × Nat)) (q : Nat)
    (hpk : ∀ p ∈ ps, (255 < p.1 → p.1 < 2 ^ 62) ∧ p.2 < U64)
    (hcap : (keysOf (nzOf (wideOf ps))).toFinset.card ≤ 127)
    (hq : q < 2 ^ 62) (habs : q ∉ keysOf ps) :
    ∃ v, pmvInsertList pmv0 ps = some v ∧ pmvGet v q = some 0 := by
  obtain ⟨v, hl, hget⟩ := pmv_master ps hpk hcap
  refine ⟨v, hl, ?_⟩
  rw [hget q hq, orMasks_not_mem ps q habs]

theorem c2_zero_default_witness :
    ((400 : Nat) ∉ keysOf [(300, 1)] ∧ (97 : Nat) ∉ keysOf [(300, 1)]) ∧
    (∃ v, pmvInsertList pmv0 [(300, 1)] = some v ∧ pmvGet v 400 = some 0) ∧
    (∃ v, pmvInsertList pmv0 [(300, 1)] = some v ∧ pmvGet v 97 = some 0) :=
  ⟨⟨by decide, by decide⟩,
   c2_zero_default [(300, 1)] 400 (by decide) (by decide) (by decide) (by decide),
   c2_zero_default [(300, 1)] 97 (by decide) (by decide) (by decide) (by decide)⟩

/-- An insert history of exactly 128 distinct wide keys `256..383`, filling
all 128 slots of the hashmap. -/
def psC2 : List (Nat × Nat) := (List.range 128).map fun j => (256 + j, 1)

/-- The vector built from `psC2`. -/
def vC2 : PMV := (pmvInsertList pmv0 psC2).getD pmv0

/-- C2 counterexample: with exactly 128 distinct wide keys — allowed by the
claim's "at most 128" capacity precondition — the build succeeds and fills
every slot, and `get` of the never-inserted key 384 does not return 0: its
probe loop never finds a free or matching slot and runs forever. -/
theorem c2_zero_default_cx :
    (keysOf (nzOf (wideOf psC2))).toFinset.card = 128 ∧
    (pmvInsertList pmv0 psC2).isSome = true ∧
    (384 : Nat) ∉ keysOf psC2 ∧
    pmvGet vC2 384 = none := by decide

/-! ### Claim C9 — frame property of insert -/

/-- C9 (amended): in a vector built from keys below `2 ^ 62` with at most
**127** distinct non-zero-mask wide keys counting the new insert,
`insert(key, pos)` leaves `get(q)` unchanged for every other key `q` below
`2 ^ 62`.  As literally stated — "at most 128 distinct wide keys after the
insert" — the claim fails at exactly 128: the insert that fills the last
free slot changes another absent key's `get` from 0 to a probe loop that
never returns (see the counterexample). -/
theorem c9_frame (ps : List (Nat × Nat)) (key pos q : Nat)
    (hpk : ∀ p ∈ ps, (255 < p.1 → p.1 < 2 ^ 62) ∧ p.2 < U64)
    (hkey : 255 < key → key < 2 ^ 62) (hq : q < 2 ^ 62) (hne : q ≠ key)
    (hcap : (keysOf (nzOf (wideOf (ps ++ [(key, 2 ^ pos % U64)])))).toFinset.card
      ≤ 127) :
    ∃ v v2, pmvInsertList pmv0 ps = some v ∧ pmvInsertOne v key pos = some v2 ∧
      pmvGet v2 q = pmvGet v q := by
  have hpk2 : ∀ p ∈ ps ++ [(key, 2 ^ pos % U64)],
      (255 < p.1 → p.1 < 2 ^ 62) ∧ p.2 < U64 := by
    intro p hp
    rcases List.mem_append.mp hp with h | h
    · exact hpk p h
    · rcases List.mem_cons.mp h with h2 | h2
      · rw [h2]
        exact ⟨hkey, Nat.mod_lt _ (by norm_num [U64])⟩
      · cases h2
  have hsub : (keysOf (nzOf (wideOf ps))).toFinset.card ≤
      (keysOf (nzOf (wideOf (ps ++ [(key, 2 ^ pos % U64)])))).toFinset.card := by
    apply Finset.card_le_card
    intro a ha
    rw [List.mem_toFinset] at ha ⊢
    rw [wideOf_append, nzOf_append, keysOf_append]
    exact List.mem_append_left _ ha
  obtain ⟨v, hl, hget⟩ := pmv_master ps hpk (le_trans hsub hcap)
  obtain ⟨v2, hl2, hget2⟩ := pmv_master (ps ++ [(key, 2 ^ pos % U64)]) hpk2 hcap
  have hlink : pmvInsertOne v key pos = some v2 := by
    rw [pmvInsertList_append, hl] at hl2
    have h3 : pmvInsertList v [(key, 2 ^ pos % U64)] = some v2 := hl2
    rw [pmvInsertList_single] at h3
    exact h3
  refine ⟨v, v2, hl, hlink, ?_⟩
  rw [hget q hq, hget2 q hq, orMasks_append_one, if_neg (fun hc => hne hc.symm)]

theorem c9_frame_witness :
    ((300 : Nat) ≠ 301) ∧
    (∃ v v2, pmvInsertList pmv0 [(300, 1)] = some v ∧
      pmvInsertOne v 301 2 = some v2 ∧ pmvGet v2 300 = pmvGet v 300) :=
  ⟨by decide,
   c9_frame [(300, 1)] 301 2 300 (by decide) (by decide) (by decide) (by decide)
     (by decide)⟩

/-- An insert history of 127 distinct wide keys `256..382`, filling slots
`0..126` and leaving slot 127 free. -/
def psC9 : List (Nat × Nat) := (List.range 127).map fun j => (256 + j, 1)

/-- The vector built from `psC9`. -/
def vC9 : PMV := (pmvInsertList pmv0 psC9).getD pmv0

/-- The vector `vC9` after additionally inserting the wide key 383 (landing in slot
127), for a total of 128 distinct wide keys. -/
def vC9b : PMV := (pmvInsertOne vC9 383 0).getD pmv0

/-- C9 counterexample: with 128 distinct wide keys after the insert — allowed
by the claim's "at most 128" — inserting key 383 changes `get(511)` for the
never-inserted key 511 from 0 to a non-returning probe loop: the insert
filled slot 127, the last slot 511's probe could have accepted. -/
theorem c9_frame_cx :
    (pmvInsertList pmv0 psC9).isSome = true ∧
    (pmvInsertOne vC9 383 0).isSome = true ∧
    (keysOf (nzOf (wideOf (psC9 ++ [(383, 2 ^ 0 % U64)])))).toFinset.card = 128 ∧
    (511 : Nat) ≠ 383 ∧
    pmvGet vC9 511 = some 0 ∧
    pmvGet vC9b 511 = none := by decide

/-! ### Claim C10 — over-length bulk insert -/

/-- C10 (amended): for every pattern of keys below `2 ^ 62` longer than 64,
the bulk insert succeeds and every `get` below `2 ^ 62` agrees with the
vector built from just the first 64 elements: positions 64 and later insert
an all-zero mask (`mask <<= 1` has shifted the set bit out).  As literally
stated (arbitrary `uint64_t` keys) the claim fails: a tail element can still
hit undefined behaviour in the hashmap probe, so the full build has no
result to compare (see the counterexample). -/
theorem c10_overlength (s : List Nat) (hk : ∀ k ∈ s, k < 2 ^ 62)
    (hlen : 64 < s.length) :
    ∃ v v64, pmvInsertSeq pmv0 s = some v ∧
      pmvInsertSeq pmv0 (s.take 64) = some v64 ∧
      ∀ q, q < 2 ^ 62 → pmvGet v q = pmvGet v64 q := by
  have hsplit : seqPairs s = seqPairs (s.take 64) ++ seqPairsFrom 64 (s.drop 64) := by
    rw [seqPairs]
    conv_lhs => rw [← List.take_append_drop 64 s]
    rw [seqPairsFrom_append, seqPairs]
    congr 2
    rw [List.length_take]
    omega
  have hz : ∀ p ∈ seqPairsFrom 64 (s.drop 64), p.2 = 0 :=
    seqPairsFrom_zeros (s.drop 64) 64 le_rfl
  have hpk : ∀ p ∈ seqPairs s, (255 < p.1 → p.1 < 2 ^ 62) ∧ p.2 < U64 := by
    intro p hp
    obtain ⟨h1, h2⟩ := seqPairsFrom_mem s 0 p hp
    exact ⟨fun _ => hk p.1 h1, h2⟩
  have hpk64 : ∀ p ∈ seqPairs (s.take 64), (255 < p.1 → p.1 < 2 ^ 62) ∧ p.2 < U64 := by
    intro p hp
    obtain ⟨h1, h2⟩ := seqPairsFrom_mem (s.take 64) 0 p hp
    exact ⟨fun _ => hk p.1 (List.mem_of_mem_take h1), h2⟩
  have hcap64 : (keysOf (nzOf (wideOf (seqPairs (s.take 64))))).toFinset.card
      ≤ 127 := by
    have h1 := wide_distinct_le_length (seqPairs (s.take 64))
    have h2 : (seqPairs (s.take 64)).length = (s.take 64).length :=
      seqPairsFrom_length (s.take 64) 0
    have h3 : (s.take 64).length = min 64 s.length := List.length_take 64 s
    omega
  have hnzb : nzOf (wideOf (seqPairsFrom 64 (s.drop 64))) = [] := by
    rw [nzOf, List.filter_eq_nil_iff]
    intro p hp
    have hsubw : wideOf (seqPairsFrom 64 (s.drop 64)) ⊆ seqPairsFrom 64 (s.drop 64) :=
      (List.filter_sublist _).subset
    have h0 := hz p (hsubw hp)
    simp [h0]
  have hkeys : keysOf (nzOf (wideOf (seqPairs s))) =
      keysOf (nzOf (wideOf (seqPairs (s.take 64)))) := by
    rw [hsplit, wideOf_append, nzOf_append, hnzb, List.append_nil]
  have hcap : (keysOf (nzOf (wideOf (seqPairs s)))).toFinset.card ≤ 127 := by
    rw [hkeys]
    exact hcap64
  obtain ⟨v, hl, hget⟩ := pmv_master (seqPairs s) hpk hcap
  obtain ⟨v64, hl64, hget64⟩ := pmv_master (seqPairs (s.take 64)) hpk64 hcap64
  refine ⟨v, v64, ?_, ?_, ?_⟩
  · rw [pmvInsertSeq_eq_list]
    exact hl
  · rw [pmvInsertSeq_eq_list]
    exact hl64
  · intro q hq
    rw [hget q hq, hget64 q hq]
    congr 1
    rw [hsplit, orMasks_append_zeros _ _ hz]

theorem c10_overlength_witness :
    ((∀ k ∈ List.replicate 65 (97 : Nat), k < 2 ^ 62) ∧
     64 < (List.replicate 65 (97 : Nat)).length) ∧
    (∃ v v64, pmvInsertSeq pmv0 (List.replicate 65 97) = some v ∧
      pmvInsertSeq pmv0 ((List.replicate 65 (97 : Nat)).take 64) = some v64 ∧
      ∀ q, q < 2 ^ 62 → pmvGet v q = pmvGet v64 q) :=
  ⟨⟨by decide, by decide⟩,
   c10_overlength (List.replicate 65 97) (by decide) (by decide)⟩

/-- A 65-element pattern whose first element fills hashmap slot 127 and whose
65th element is the `uint64_t` key `2 ^ 63 - 1`. -/
def sC10 : List Nat := 383 :: (List.replicate 63 97 ++ [2 ^ 63 - 1])

/-- C10 counterexample: position 64 contributes a zero mask, yet it still
runs a hashmap probe for its key.  In `sC10` that key is `2 ^ 63 - 1`, whose
probe from the occupied slot 127 computes a negative (int64-overflowed)
table index: the full build hits undefined behaviour and returns nothing,
while the first-64-elements build succeeds — their `get`s cannot agree. -/
theorem c10_overlength_cx :
    sC10.length = 65 ∧
    (pmvInsertSeq pmv0 sC10).isSome = false ∧
    (pmvInsertSeq pmv0 (sC10.take 64)).isSome = true := by decide

/-! ### Claim C6 — direct/hashmap routing equivalence -/

/-- The `(key, position)` pairs of a pattern, starting at position `t`. -/
def posPairsFrom : Nat → List Nat → List (Nat × Nat)
  | _, [] => []
  | t, k :: rest => (k, t) :: posPairsFrom (t + 1) rest

/-- Run a list of single-position `PatternMatchVector::insert(key, pos)`
calls. -/
def pmvInsertOnes : PMV → List (Nat × Nat) → Option PMV
  | v, [] => some v
  | v, p :: rest =>
    match pmvInsertOne v p.1 p.2 with
    | some v2 => pmvInsertOnes v2 rest
    | none => none

theorem pmvInsertOnes_eq_list : ∀ (s : List Nat) (t : Nat) (v : PMV),
    pmvInsertOnes v (posPairsFrom t s) = pmvInsertList v (seqPairsFrom t s) := by
  intro s
  induction s with
  | nil => intro t v; rfl
  | cons k rest ih =>
    intro t v
    cases hm : pmvInsertMask v k (2 ^ t % U64) with
    | none =>
      have hm2 : pmvInsertOne v k t = none := hm
      simp only [posPairsFrom, seqPairsFrom, pmvInsertOnes, pmvInsertList, hm, hm2]
    | some v2 =>
      have hm2 : pmvInsertOne v k t = some v2 := hm
      simp only [posPairsFrom, seqPairsFrom, pmvInsertOnes, pmvInsertList, hm, hm2]
      exact ih (t + 1) v2

/-- C6 (amended): the bulk insert of any pattern equals the run of
single-position inserts at the same `(key, position)` pairs — the two insert
paths produce the identical vector, hence identical `get` results for every
key, ASCII or not; and a wide key below `2 ^ 62` (such as `0x1F600`)
inserted at position `pos` reads back exactly bit `pos` through the hashmap
path, while a never-inserted wide key below `2 ^ 62` reads back 0.  As
literally stated (any key greater than 255) the claim fails: see the
counterexample. -/
theorem c6_routing_equiv (s : List Nat) (hs : s.length ≤ 64)
    (key pos q : Nat) (hkey : 255 < key) (hkw : key < 2 ^ 62) (hpos : pos < 64)
    (hq : 255 < q) (hqw : q < 2 ^ 62) (hne : q ≠ key) :
    pmvInsertSeq pmv0 s = pmvInsertOnes pmv0 (posPairsFrom 0 s) ∧
    ∃ v, pmvInsertOne pmv0 key pos = some v ∧
      pmvGet v key = some (2 ^ pos) ∧ pmvGet v q = some 0 := by
  constructor
  · rw [pmvInsertSeq_eq_list, seqPairs, pmvInsertOnes_eq_list]
  · have hmU : 2 ^ pos % U64 = 2 ^ pos := by
      apply Nat.mod_eq_of_lt
      have h : (2 : Nat) ^ pos < 2 ^ 64 := Nat.pow_lt_pow_right (by omega) (by omega)
      simpa [U64] using h
    have hpk : ∀ p ∈ [(key, 2 ^ pos % U64)],
        (255 < p.1 → p.1 < 2 ^ 62) ∧ p.2 < U64 := by
      intro p hp
      rcases List.mem_cons.mp hp with h | h
      · rw [h]
        exact ⟨fun _ => hkw, Nat.mod_lt _ (by norm_num [U64])⟩
      · cases h
    have hcap : (keysOf (nzOf (wideOf [(key, 2 ^ pos % U64)]))).toFinset.card
        ≤ 127 := by
      have h := wide_distinct_le_length [(key, 2 ^ pos % U64)]
      simp only [List.length_cons, List.length_nil] at h
      omega
    obtain ⟨v, hl, hget⟩ := pmv_master [(key, 2 ^ pos % U64)] hpk hcap
    rw [pmvInsertList_single] at hl
    refine ⟨v, hl, ?_, ?_⟩
    · rw [hget key hkw]
      congr 1
      rw [orMasks, List.foldl_cons, List.foldl_nil, orStep, if_pos rfl,
        Nat.zero_or, hmU, hmU]
    · rw [hget q hqw]
      congr 1
      apply orMasks_not_mem
      intro hc
      simp [keysOf] at hc
      exact hne hc

theorem c6_routing_equiv_witness :
    ((255 : Nat) < 128512 ∧ (255 : Nat) < 128513 ∧ (128513 : Nat) ≠ 128512) ∧
    ((pmvInsertSeq pmv0 [71, 85, 77, 66, 79] =
        pmvInsertOnes pmv0 (posPairsFrom 0 [71, 85, 77, 66, 79])) ∧
     ∃ v, pmvInsertOne pmv0 128512 5 = some v ∧
       pmvGet v 128512 = some (2 ^ 5) ∧ pmvGet v 128513 = some 0) :=
  ⟨⟨by decide, by decide, by decide⟩,
   c6_routing_equiv [71, 85, 77, 66, 79] (by decide) 128512 5 128513 (by decide)
     (by decide) (by decide) (by decide) (by decide) (by decide)⟩

/-- The vector after the single insert of the `uint64_t` key `2 ^ 64 - 1` at
position 0. -/
def vC6 : PMV := (pmvInsertOne pmv0 (2 ^ 64 - 1) 0).getD pmv0

/-- C6 counterexample: the wide key `2 ^ 64 - 1` inserts fine, but the
never-inserted wide key `2 ^ 63 - 1` then reads back no value at all instead
of 0 — its probe subscripts the table at a negative index (undefined
behaviour). -/
theorem c6_routing_equiv_cx :
    (255 : Nat) < 2 ^ 63 - 1 ∧
    (2 ^ 63 - 1 : Nat) ≠ 2 ^ 64 - 1 ∧
    (pmvInsertOne pmv0 (2 ^ 64 - 1) 0).isSome = true ∧
    pmvGet vC6 (2 ^ 63 - 1) = none := by decide

/-! ### Claim C4 — block boundary arithmetic -/

theorem div_lt_ceildivN (i L : Nat) (h : i < L) : i / 64 < ceildivN L 64 := by
  rw [ceildivN]
  split <;> omega

theorem blockInsertOne_count (v : BPMV) (block : Int) (key pos : Nat) (v2 : BPMV)
    (h : blockInsertOne v block key pos = .ok v2) : v2.blockCount = v.blockCount := by
  simp only [blockInsertOne] at h
  split at h
  · split at h
    · split at h
      · injection h with h2
        rw [← h2]
      · cases h
    · split at h
      · split at h
        · injection h with h2
          rw [← h2]
        · cases h
      · cases h
  · cases h

/-- The insert loop succeeds and keeps `m_block_count` whenever every key is
ASCII and every position's block index is below `m_block_count`. -/
theorem blockLoop_ok : ∀ (rest : List Nat) (v : BPMV) (t : Nat),
    (∀ k ∈ rest, k ≤ 255) →
    (∀ j, j < rest.length → (t + j) / 64 < v.blockCount) →
    ∃ v2, blockLoop v rest t = .ok v2 ∧ v2.blockCount = v.blockCount := by
  intro rest
  induction rest with
  | nil => intro v t _ _; exact ⟨v, rfl, rfl⟩
  | cons k rest ih =>
    intro v t hks hb
    have hb0 : t / 64 < v.blockCount := by
      have h := hb 0 (by simp)
      simpa using h
    have hkey : k ≤ 255 := hks k (List.mem_cons_self _ _)
    have hblock : ((t / 64 : Nat) : Int) < (v.blockCount : Int) := by
      exact_mod_cast hb0
    have hidxlo : (0 : Int) ≤ (k : Int) * (v.blockCount : Int) +
        ((t / 64 : Nat) : Int) := by positivity
    have hidxhi : (k : Int) * (v.blockCount : Int) + ((t / 64 : Nat) : Int) <
        256 * (v.blockCount : Int) := by
      have hk255 : (k : Int) ≤ 255 := by exact_mod_cast hkey
      have hc0 : (0 : Int) ≤ (v.blockCount : Int) := by positivity
      nlinarith [hblock, hk255, hc0]
    have hok : bresIsOk (blockInsertOne v ((t / 64 : Nat) : Int) k (t % 64)) = true := by
      simp only [blockInsertOne]
      rw [if_pos hblock, if_pos hkey, if_pos ⟨hidxlo, hidxhi⟩]
      rfl
    cases hins : blockInsertOne v ((t / 64 : Nat) : Int) k (t % 64) with
    | assertViolation => rw [hins] at hok; simp [bresIsOk] at hok
    | oob => rw [hins] at hok; simp [bresIsOk] at hok
    | ok V2 =>
      have hV2c : V2.blockCount = v.blockCount := blockInsertOne_count _ _ _ _ _ hins
      have hbk : ∀ j, j < rest.length → (t + 1 + j) / 64 < V2.blockCount := by
        intro j hj
        rw [hV2c]
        have h := hb (j + 1) (by simpa using Nat.succ_lt_succ hj)
        have he : t + (j + 1) = t + 1 + j := by omega
        rw [he] at h
        exact h
      obtain ⟨v3, h3, hc3⟩ := ih V2 (t + 1)
        (fun k2 hk2 => hks k2 (List.mem_cons_of_mem _ hk2)) hbk
      refine ⟨v3, ?_, by rw [hc3, hV2c]⟩
      rw [blockLoop, hins]
      exact h3

/-- A 130-character pattern: key 97 everywhere except key 88 at position 63,
key 66 at position 64 and key 70 at position 129. -/
def p130 : List Nat :=
  (List.range 130).map fun i =>
    if i = 63 then 88 else if i = 64 then 66 else if i = 129 then 70 else 97

/-- The `BlockPatternMatchVector` built from `p130`. -/
def v130 : BPMV := bresGetD (blockBuild p130) (blockFresh 0)

/-- C4 (confirmed): the bulk insert of any all-ASCII length-`L` sequence
succeeds with `m_block_count = ceildiv(L, 64)`, each position `i` being
routed to block `i / 64` and bit `i % 64`; in particular the 130-character
pattern `p130` gets `block_count = 3`, its position 63 lands in block 0
bit 63 (and nowhere in block 1), position 64 in block 1 bit 0 (and nowhere in
block 0), and position 129 in block 2 bit 1 (and nowhere in block 1). -/
theorem c4_block_boundary (s : List Nat) (hks : ∀ k ∈ s, k ≤ 255) :
    (∃ v, blockBuild s = .ok v ∧ v.blockCount = ceildivN s.length 64) ∧
    (ceildivN p130.length 64 = 3 ∧
     bresIsOk (blockBuild p130) = true ∧
     v130.blockCount = 3 ∧
     blockGet v130 0 88 = .ok (2 ^ 63) ∧
     blockGet v130 1 88 = .ok 0 ∧
     blockGet v130 1 66 = .ok 1 ∧
     blockGet v130 0 66 = .ok 0 ∧
     blockGet v130 2 70 = .ok 2 ∧
     blockGet v130 1 70 = .ok 0) := by
  constructor
  · have hb : ∀ j, j < s.length →
        (0 + j) / 64 < (blockFresh (ceildivN s.length 64)).blockCount := by
      intro j hj
      rw [Nat.zero_add]
      exact div_lt_ceildivN j s.length hj
    obtain ⟨v2, hl, hc⟩ := blockLoop_ok s (blockFresh (ceildivN s.length 64)) 0 hks hb
    exact ⟨v2, hl, hc⟩
  · refine ⟨by decide, by decide, by decide, by decide, by decide, by decide,
      by decide, by decide, by decide⟩

theorem c4_block_boundary_witness :
    (∀ k ∈ p130, k ≤ 255) ∧
    ((∃ v, blockBuild p130 = .ok v ∧ v.blockCount = ceildivN p130.length 64) ∧
     (ceildivN p130.length 64 = 3 ∧
      bresIsOk (blockBuild p130) = true ∧
      v130.blockCount = 3 ∧
      blockGet v130 0 88 = .ok (2 ^ 63) ∧
      blockGet v130 1 88 = .ok 0 ∧
      blockGet v130 1 66 = .ok 1 ∧
      blockGet v130 0 66 = .ok 0 ∧
      blockGet v130 2 70 = .ok 2 ∧
      blockGet v130 1 70 = .ok 0)) :=
  ⟨by decide, c4_block_boundary p130 (by decide)⟩

end JaroWinkler
